import Mathlib

/-!
# Verification development for `ghoul-patches/uniform_conversion.h`

The header consists of `convert`, which narrows `count` doubles into a
`static thread_local std::vector<GLfloat> tmp` and returns `tmp.data()`, and of
forwarding helpers that hand the narrowed values to the float-typed OpenGL entry
points.

Embedding:
* floating-point values are exact: a finite value is `±m * 2^e`; the language
  primitive `static_cast<GLfloat>` on a `GLdouble` is the IEEE-754 conversion
  binary64 → binary32 in the default rounding mode, computed over integers;
* `std::vector<GLfloat>` is a `List GLfloat`; the thread-local `tmp` is passed
  explicitly; the pointer `tmp.data()` is the buffer itself, and what a consumer
  reads through it is a prefix of the buffer;
* raw pointer reads `src[i]` are checked: a read or write outside the storage
  makes the embedding return `none`;
* `size_t` counts are natural numbers (the loop variable never exceeds `count`,
  so it does not wrap), and an allocation in `resize` does not fail;
* the OpenGL entry points are external: a call is recorded in a trace, with the
  values the entry point reads at the time of the call.
-/

namespace ghoul.opengl.util

/-! ## Floating-point values -/

/-- A binary floating-point format: `prec` significand bits, `emin` the exponent
of the least significant bit of a subnormal, `emax` the largest exponent of the
least significant bit of a finite value. -/
structure Format where
  prec : Nat
  emin : Int
  emax : Int
deriving DecidableEq, Repr

/-- IEEE-754 binary32 (`GLfloat`). -/
def binary32 : Format := ⟨24, -149, 104⟩

/-- IEEE-754 binary64 (`GLdouble`). -/
def binary64 : Format := ⟨53, -1074, 971⟩

/-- A floating-point datum: a finite value `(-1)^sign * m * 2^e`, an infinity or
a NaN (the payload of a NaN is not modelled). -/
inductive FP where
  | finite (sign : Bool) (m : Nat) (e : Int)
  | inf (sign : Bool)
  | nan
deriving DecidableEq, Repr

/-- `GLfloat` of `<GL/glew.h>`: a binary32 datum. -/
abbrev GLfloat := FP

/-- `GLdouble` of `<GL/glew.h>`: a binary64 datum. -/
abbrev GLdouble := FP

/-- The data of format `fmt`, in canonical form: the significand fits in
`prec` bits, the exponent is in range, and the significand is normalised unless
the exponent is the smallest one. -/
def FP.Representable (fmt : Format) : FP → Prop
  | FP.finite _ m e =>
      m < 2 ^ fmt.prec ∧ fmt.emin ≤ e ∧ e ≤ fmt.emax ∧ (e = fmt.emin ∨ 2 ^ (fmt.prec - 1) ≤ m)
  | FP.inf _ => True
  | FP.nan => True

instance (fmt : Format) (x : FP) : Decidable (FP.Representable fmt x) := by
  cases x <;> unfold FP.Representable <;> infer_instance

/-- Finite data. -/
def FP.isFinite : FP → Bool
  | FP.finite _ _ _ => true
  | _ => false

/-- The exact value of a finite datum (`0` for the others). -/
def FP.toRat : FP → ℚ
  | FP.finite s m e => (if s then -1 else 1) * (m : ℚ) * (2 : ℚ) ^ e
  | _ => 0

/-- Floor of the binary logarithm of `n` (`0` for `n = 0`), by halving; `fuel`
bounds the number of halvings. -/
def ilog2 : Nat → Nat → Nat
  | 0, _ => 0
  | fuel + 1, n => if n < 2 then 0 else ilog2 fuel (n / 2) + 1

/-- The integer nearest to `n / d`, the even one of the two when `n / d` lies
halfway. -/
def rneDiv (n d : Nat) : Nat :=
  let q := n / d
  let r := n % d
  if 2 * r < d then q
  else if d < 2 * r then q + 1
  else if q % 2 = 0 then q else q + 1

/-- Floor of the binary logarithm of the ratio `n / d`, for `n, d > 0`. -/
def floorLog2 (n d : Nat) : Int :=
  let k : Int := (ilog2 n n : Int) - (ilog2 d d : Int)
  if (if 0 ≤ k then d * 2 ^ k.toNat ≤ n else d ≤ n * 2 ^ (-k).toNat) then k else k - 1

/-- The integer nearest to `(n / d) / 2^e`, ties to even. -/
def scaledRne (n d : Nat) (e : Int) : Nat :=
  if 0 ≤ e then rneDiv n (d * 2 ^ e.toNat) else rneDiv (n * 2 ^ (-e).toNat) d

/-- The exponent at which `n / d` is rounded in format `fmt`: the one that puts
`n / d` in `[2^(prec-1), 2^prec)` units, or `emin` when that is smaller. -/
def binadeExp (fmt : Format) (n d : Nat) : Int :=
  max fmt.emin (floorLog2 n d - ((fmt.prec : Int) - 1))

/-- IEEE-754 round-to-nearest, ties-to-even, of the magnitude `n / d` (with
`d > 0`) into format `fmt`, with the given sign: the significand is rounded at
the exponent of the binade of `n / d` (at `emin` below the normal range), a
carry out of the significand moves to the next binade, and a result beyond the
largest finite value is an infinity. -/
def roundRatio (fmt : Format) (sign : Bool) (n d : Nat) : FP :=
  if n = 0 then FP.finite sign 0 fmt.emin
  else
    let e : Int := binadeExp fmt n d
    let m : Nat := scaledRne n d e
    if m = 2 ^ fmt.prec then
      if fmt.emax < e + 1 then FP.inf sign else FP.finite sign (2 ^ (fmt.prec - 1)) (e + 1)
    else
      if fmt.emax < e then FP.inf sign else FP.finite sign m e

/-- The language primitive `static_cast<GLfloat>(x)` for a `GLdouble x`: the
IEEE-754 conversion to binary32 in the default rounding mode. A finite `x` is
rounded to nearest, ties to even (overflowing to an infinity); infinities and
NaN are kept. -/
def static_cast_GLfloat : GLdouble → GLfloat
  | FP.finite s m e =>
      if 0 ≤ e then roundRatio binary32 s (m * 2 ^ e.toNat) 1
      else roundRatio binary32 s m (2 ^ (-e).toNat)
  | FP.inf s => FP.inf s
  | FP.nan => FP.nan

/-- A decimal literal `±n / d` of type `double` (`1.0`, `2.5`): the binary64
datum nearest to it. -/
def doubleLit (neg : Bool) (n d : Nat) : GLdouble := roundRatio binary64 neg n d

/-- A decimal literal `±n / d` of type `float` (`1.0f`, `2.5f`): the binary32
datum nearest to it. -/
def floatLit (neg : Bool) (n d : Nat) : GLfloat := roundRatio binary32 neg n d

/-- The specification of narrowing, in the words of the spec: `r` is the datum
of format `fmt` nearest to the exact value `x`, and the one with an even
significand when `x` lies halfway between two data (round-to-nearest,
ties-to-even); a value of magnitude `(2^prec - 1/2) * 2^emax` or more, for
which this rule leaves the finite range, gives the infinity of its sign. -/
def IsNearestEven (fmt : Format) (x : ℚ) : FP → Prop
  | FP.finite s m e =>
      FP.Representable fmt (FP.finite s m e) ∧
      |x| < ((2 : ℚ) ^ fmt.prec - 1 / 2) * (2 : ℚ) ^ fmt.emax ∧
      (x < 0 → s = true) ∧ (0 < x → s = false) ∧
      ∀ y : FP, y.isFinite = true → FP.Representable fmt y →
        |(FP.finite s m e).toRat - x| ≤ |y.toRat - x| ∧
        (|(FP.finite s m e).toRat - x| = |y.toRat - x| →
          y.toRat ≠ (FP.finite s m e).toRat → m % 2 = 0)
  | FP.inf s =>
      ((2 : ℚ) ^ fmt.prec - 1 / 2) * (2 : ℚ) ^ fmt.emax ≤ |x| ∧ (s = true ↔ x < 0)
  | FP.nan => False

/-- A value-initialised `GLfloat`, `0.0f`. -/
def GLfloat.zero : GLfloat := FP.finite false 0 binary32.emin

/-! ## `convert` -/

/-- `std::vector<GLfloat>::resize(n)`: keeps the first `n` elements and appends
value-initialised elements up to size `n`. -/
def resize (v : List GLfloat) (n : Nat) : List GLfloat :=
  v.take n ++ List.replicate (n - v.length) GLfloat.zero

/-- Line 8, `if (tmp.size() < count) tmp.resize(count);`. -/
def resizeStep (tmp : List GLfloat) (count : Nat) : List GLfloat :=
  if tmp.length < count then resize tmp count else tmp

/-- Lines 9-11, `for (size_t i = 0; i < count; ++i) tmp[i] = static_cast<GLfloat>(src[i]);`,
from loop variable `i` with `k = count - i` iterations still to run. Returns
the loop variable at exit and the buffer, or `none` when `src[i]` or `tmp[i]`
lies outside its storage. -/
def convertLoop (src : List GLdouble) : Nat → Nat → List GLfloat → Option (Nat × List GLfloat)
  | 0, i, tmp => some (i, tmp)
  | k + 1, i, tmp =>
      match src[i]? with
      | none => none
      | some x =>
          if i < tmp.length then convertLoop src k (i + 1) (tmp.set i (static_cast_GLfloat x))
          else none

/-- `convert(src, count)` run on the calling thread's `tmp`: the thread's `tmp`
after the call. The returned pointer `tmp.data()` designates the start of that
buffer. -/
def convert (tmp : List GLfloat) (src : List GLdouble) (count : Nat) : Option (List GLfloat) :=
  (convertLoop src count 0 (resizeStep tmp count)).map Prod.snd

/-- The `n` floats read through a pointer to the start of `buf`. -/
def readFloats (buf : List GLfloat) (n : Nat) : List GLfloat := buf.take n

/-- The view returned by `convert(src, count)`: the first `count` elements
behind the returned pointer. -/
def ConversionView (tmp : List GLfloat) (count : Nat) : List GLfloat := readFloats tmp count

/-- The narrowing of the first `n` elements of `v`. -/
def narrowed (v : List GLdouble) (n : Nat) : List GLfloat := (v.take n).map static_cast_GLfloat

/-! ## Forwarding helpers -/

/-- `GL_FALSE`. -/
def GL_FALSE : Nat := 0

/-- A call of an OpenGL entry point, with the floats it reads through its
pointer argument. -/
inductive GLCall where
  | glUniform3fv (location : Int) (count : Nat) (value : List GLfloat)
  | glUniform4fv (location : Int) (count : Nat) (value : List GLfloat)
  | glUniformMatrix4fv (location : Int) (count : Nat) (transpose : Nat) (value : List GLfloat)
  | glUniformMatrix3fv (location : Int) (count : Nat) (transpose : Nat) (value : List GLfloat)
  | glVertexAttrib1f (index : Nat) (x : GLfloat)
  | glVertexAttrib2f (index : Nat) (x y : GLfloat)
  | glVertexAttrib3f (index : Nat) (x y z : GLfloat)
  | glVertexAttrib4f (index : Nat) (x y z w : GLfloat)
  | glVertexAttrib2fv (index : Nat) (v : List GLfloat)
  | glVertexAttrib3fv (index : Nat) (v : List GLfloat)
  | glVertexAttrib4fv (index : Nat) (v : List GLfloat)
deriving DecidableEq, Repr

/-- The state a helper acts on: the calling thread's `tmp` and the OpenGL calls
issued so far, oldest first. -/
structure Ctx where
  tmp : List GLfloat
  gl : List GLCall
deriving DecidableEq, Repr

/-- `GLuint` addition: unsigned 32-bit. -/
def GLuint.add (a b : Nat) : Nat := (a + b) % 2 ^ 32

/-- Lines 15-18: `convert(value, 3)`, then `glUniform3fv(loc, 1, f)`. -/
def Uniform3dv (loc : Int) (value : List GLdouble) (s : Ctx) : Option Ctx :=
  (convert s.tmp value 3).map fun f =>
    { tmp := f, gl := s.gl ++ [GLCall.glUniform3fv loc 1 (readFloats f (3 * 1))] }

/-- Lines 21-24: `convert(value, 4)`, then `glUniform4fv(loc, 1, f)`. -/
def Uniform4dv (loc : Int) (value : List GLdouble) (s : Ctx) : Option Ctx :=
  (convert s.tmp value 4).map fun f =>
    { tmp := f, gl := s.gl ++ [GLCall.glUniform4fv loc 1 (readFloats f (4 * 1))] }

/-- Lines 26-29: `convert(value, 16)`, then `glUniformMatrix4fv(loc, 1, GL_FALSE, f)`. -/
def UniformMatrix4dv (loc : Int) (value : List GLdouble) (s : Ctx) : Option Ctx :=
  (convert s.tmp value 16).map fun f =>
    { tmp := f, gl := s.gl ++ [GLCall.glUniformMatrix4fv loc 1 GL_FALSE (readFloats f (16 * 1))] }

/-- Lines 31-34: `convert(value, 9)`, then `glUniformMatrix3fv(loc, 1, GL_FALSE, f)`. -/
def UniformMatrix3dv (loc : Int) (value : List GLdouble) (s : Ctx) : Option Ctx :=
  (convert s.tmp value 9).map fun f =>
    { tmp := f, gl := s.gl ++ [GLCall.glUniformMatrix3fv loc 1 GL_FALSE (readFloats f (9 * 1))] }

/-- Lines 38-40: `glVertexAttrib1f(loc, static_cast<GLfloat>(v))`; no use of `convert`. -/
def VertexAttrib1d_as_f (loc : Nat) (v : GLdouble) (s : Ctx) : Ctx :=
  { s with gl := s.gl ++ [GLCall.glVertexAttrib1f loc (static_cast_GLfloat v)] }

/-- Lines 42-44: `glVertexAttrib2f` on the two narrowed scalars. -/
def VertexAttrib2d_as_f (loc : Nat) (v1 v2 : GLdouble) (s : Ctx) : Ctx :=
  { s with gl := s.gl ++
      [GLCall.glVertexAttrib2f loc (static_cast_GLfloat v1) (static_cast_GLfloat v2)] }

/-- Lines 46-52: `glVertexAttrib3f` on the three narrowed scalars. -/
def VertexAttrib3d_as_f (loc : Nat) (v1 v2 v3 : GLdouble) (s : Ctx) : Ctx :=
  { s with gl := s.gl ++
      [GLCall.glVertexAttrib3f loc (static_cast_GLfloat v1) (static_cast_GLfloat v2)
        (static_cast_GLfloat v3)] }

/-- Lines 54-61: `glVertexAttrib4f` on the four narrowed scalars. -/
def VertexAttrib4d_as_f (loc : Nat) (v1 v2 v3 v4 : GLdouble) (s : Ctx) : Ctx :=
  { s with gl := s.gl ++
      [GLCall.glVertexAttrib4f loc (static_cast_GLfloat v1) (static_cast_GLfloat v2)
        (static_cast_GLfloat v3) (static_cast_GLfloat v4)] }

/-- Lines 63-66: `convert(v, 2)`, then `glVertexAttrib2fv(loc, f)`. -/
def VertexAttrib2dv_as_fv (loc : Nat) (v : List GLdouble) (s : Ctx) : Option Ctx :=
  (convert s.tmp v 2).map fun f =>
    { tmp := f, gl := s.gl ++ [GLCall.glVertexAttrib2fv loc (readFloats f 2)] }

/-- Lines 68-71: `convert(v, 3)`, then `glVertexAttrib3fv(loc, f)`. -/
def VertexAttrib3dv_as_fv (loc : Nat) (v : List GLdouble) (s : Ctx) : Option Ctx :=
  (convert s.tmp v 3).map fun f =>
    { tmp := f, gl := s.gl ++ [GLCall.glVertexAttrib3fv loc (readFloats f 3)] }

/-- Lines 73-76: `convert(v, 4)`, then `glVertexAttrib4fv(loc, f)`. -/
def VertexAttrib4dv_as_fv (loc : Nat) (v : List GLdouble) (s : Ctx) : Option Ctx :=
  (convert s.tmp v 4).map fun f =>
    { tmp := f, gl := s.gl ++ [GLCall.glVertexAttrib4fv loc (readFloats f 4)] }

/-- Lines 79-82: the two columns in turn, at `loc + 0` and `loc + 1`. -/
def VertexAttribMatrix2_as_fv (loc : Nat) (col0 col1 : List GLdouble) (s : Ctx) : Option Ctx :=
  (VertexAttrib2dv_as_fv (GLuint.add loc 0) col0 s).bind fun s =>
  VertexAttrib2dv_as_fv (GLuint.add loc 1) col1 s

/-- Lines 84-88: the three columns in turn, at `loc + 0`, `loc + 1`, `loc + 2`. -/
def VertexAttribMatrix3_as_fv (loc : Nat) (col0 col1 col2 : List GLdouble) (s : Ctx) :
    Option Ctx :=
  (VertexAttrib3dv_as_fv (GLuint.add loc 0) col0 s).bind fun s =>
  (VertexAttrib3dv_as_fv (GLuint.add loc 1) col1 s).bind fun s =>
  VertexAttrib3dv_as_fv (GLuint.add loc 2) col2 s

/-- Lines 90-95: the four columns in turn, at `loc + 0` … `loc + 3`. -/
def VertexAttribMatrix4_as_fv (loc : Nat) (col0 col1 col2 col3 : List GLdouble) (s : Ctx) :
    Option Ctx :=
  (VertexAttrib4dv_as_fv (GLuint.add loc 0) col0 s).bind fun s =>
  (VertexAttrib4dv_as_fv (GLuint.add loc 1) col1 s).bind fun s =>
  (VertexAttrib4dv_as_fv (GLuint.add loc 2) col2 s).bind fun s =>
  VertexAttrib4dv_as_fv (GLuint.add loc 3) col3 s

/-! ## Threads -/

/-- The instances of the `thread_local` vector `tmp`, one per thread. -/
abbrev World := Nat → List GLfloat

/-- A `convert(src, count)` call made by thread `thread`. -/
structure Call where
  thread : Nat
  src : List GLdouble
  count : Nat

/-- Thread `c.thread` runs `convert(c.src, c.count)`: the call acts on that
thread's instance of `tmp`. -/
def convertOn (w : World) (c : Call) : Option World :=
  (convert (w c.thread) c.src c.count).map fun f => Function.update w c.thread f

/-- An interleaving of `convert` calls of several threads, run in order. -/
def runCalls : World → List Call → Option World
  | w, [] => some w
  | w, c :: cs => (convertOn w c).bind fun w => runCalls w cs

/-- The `convert` calls of one thread, run in order on that thread's `tmp`. -/
def runThread : List GLfloat → List Call → Option (List GLfloat)
  | tmp, [] => some tmp
  | tmp, c :: cs => (convert tmp c.src c.count).bind fun f => runThread f cs


/-! ## Rounding to nearest, ties to even -/

theorem rneDiv_cases (n d : Nat) (hd : 0 < d) :
    ∃ (q : Nat) (ρ : ℚ), (n : ℚ) / d = q + ρ ∧ 0 ≤ ρ ∧ ρ < 1 ∧
      ((ρ < 1 / 2 ∧ rneDiv n d = q) ∨ (1 / 2 < ρ ∧ rneDiv n d = q + 1) ∨
       (ρ = 1 / 2 ∧ q % 2 = 0 ∧ rneDiv n d = q) ∨
       (ρ = 1 / 2 ∧ q % 2 = 1 ∧ rneDiv n d = q + 1)) := by
  have hdq : (0 : ℚ) < d := by exact_mod_cast hd
  have hnd : (n : ℚ) = (d : ℚ) * ((n / d : Nat) : ℚ) + ((n % d : Nat) : ℚ) := by
    exact_mod_cast (Nat.div_add_mod n d).symm
  have hr : n % d < d := Nat.mod_lt n hd
  refine ⟨n / d, ((n % d : Nat) : ℚ) / d, ?_, ?_, ?_, ?_⟩
  · rw [hnd]; field_simp; ring
  · positivity
  · rw [div_lt_one hdq]; exact_mod_cast hr
  · unfold rneDiv
    simp only
    by_cases h1 : 2 * (n % d) < d
    · left
      refine ⟨?_, by rw [if_pos h1]⟩
      rw [div_lt_div_iff₀ hdq (by norm_num)]
      have : ((2 * (n % d) : Nat) : ℚ) < d := by exact_mod_cast h1
      push_cast at this; linarith
    · rw [if_neg h1]
      by_cases h2 : d < 2 * (n % d)
      · right; left
        refine ⟨?_, by rw [if_pos h2]⟩
        rw [div_lt_div_iff₀ (by norm_num) hdq]
        have : (d : ℚ) < ((2 * (n % d) : Nat) : ℚ) := by exact_mod_cast h2
        push_cast at this; linarith
      · rw [if_neg h2]
        have h3 : 2 * (n % d) = d := by omega
        have h4 : ((n % d : Nat) : ℚ) / d = 1 / 2 := by
          rw [div_eq_div_iff (ne_of_gt hdq) (by norm_num)]
          have : ((2 * (n % d) : Nat) : ℚ) = d := by exact_mod_cast h3
          push_cast at this; linarith
        by_cases h5 : n / d % 2 = 0
        · right; right; left
          exact ⟨h4, h5, by rw [if_pos h5]⟩
        · right; right; right
          exact ⟨h4, by omega, by rw [if_neg h5]⟩

theorem rneDiv_nearest (n d : Nat) (hd : 0 < d) (k : ℤ) :
    |((rneDiv n d : Nat) : ℚ) - (n : ℚ) / d| ≤ |(k : ℚ) - (n : ℚ) / d| ∧
    (|((rneDiv n d : Nat) : ℚ) - (n : ℚ) / d| = |(k : ℚ) - (n : ℚ) / d| →
      k ≠ (rneDiv n d : ℤ) → rneDiv n d % 2 = 0) := by
  obtain ⟨q, ρ, ht, h0, h1, hc⟩ := rneDiv_cases n d hd
  rw [ht]
  have hk : (k : ℚ) ≤ q ∨ (q : ℚ) + 1 ≤ k := by
    rcases le_or_lt k (q : ℤ) with h | h
    · left; exact_mod_cast h
    · right; exact_mod_cast h
  have hkabs : (k : ℚ) ≤ q → |(k : ℚ) - (q + ρ)| = q + ρ - k := by
    intro h; rw [abs_of_nonpos (by linarith)]; ring
  have hkabs2 : (q : ℚ) + 1 ≤ k → |(k : ℚ) - (q + ρ)| = k - q - ρ := by
    intro h; rw [abs_of_nonneg (by linarith)]; ring
  rcases hc with ⟨h2, hm⟩ | ⟨h2, hm⟩ | ⟨h2, he, hm⟩ | ⟨h2, he, hm⟩
  · rw [hm]
    have : |(q : ℚ) - (q + ρ)| = ρ := by rw [abs_of_nonpos (by linarith)]; ring
    rw [this]
    rcases hk with h | h
    · rw [hkabs h]
      refine ⟨by linarith, ?_⟩
      intro heq hne
      exfalso; apply hne
      have : (k : ℚ) = q := by linarith
      exact_mod_cast this
    · rw [hkabs2 h]
      refine ⟨by linarith, ?_⟩
      intro heq; exfalso; linarith
  · rw [hm]
    have : |((q + 1 : Nat) : ℚ) - (q + ρ)| = 1 - ρ := by
      push_cast; rw [abs_of_nonneg (by linarith)]; ring
    rw [this]
    rcases hk with h | h
    · rw [hkabs h]
      refine ⟨by linarith, ?_⟩
      intro heq; exfalso; linarith
    · rw [hkabs2 h]
      refine ⟨by linarith, ?_⟩
      intro heq hne
      exfalso; apply hne
      have : (k : ℚ) = q + 1 := by linarith
      exact_mod_cast this
  · rw [hm]
    have : |(q : ℚ) - (q + ρ)| = ρ := by rw [abs_of_nonpos (by linarith)]; ring
    rw [this]
    refine ⟨?_, fun _ _ => he⟩
    rcases hk with h | h
    · rw [hkabs h]; linarith
    · rw [hkabs2 h]; linarith
  · rw [hm]
    have : |((q + 1 : Nat) : ℚ) - (q + ρ)| = 1 - ρ := by
      push_cast; rw [abs_of_nonneg (by linarith)]; ring
    rw [this]
    refine ⟨?_, fun _ _ => by omega⟩
    rcases hk with h | h
    · rw [hkabs h]; linarith
    · rw [hkabs2 h]; linarith

theorem ilog2_spec (fuel : Nat) :
    ∀ n : Nat, 0 < n → n < 2 ^ fuel → 2 ^ ilog2 fuel n ≤ n ∧ n < 2 ^ (ilog2 fuel n + 1) := by
  induction fuel with
  | zero => intro n h0 h1; simp at h1; omega
  | succ fuel ih =>
    intro n h0 h1
    rw [ilog2]
    by_cases h2 : n < 2
    · rw [if_pos h2]; simp; omega
    · rw [if_neg h2]
      have h3 : n / 2 < 2 ^ fuel := by
        rw [Nat.div_lt_iff_lt_mul (by norm_num)]
        rw [pow_succ] at h1; exact h1
      obtain ⟨ha, hb⟩ := ih (n / 2) (by omega) h3
      rw [pow_succ, pow_succ]
      rw [pow_succ] at hb
      constructor <;> omega

theorem ilog2_self (n : Nat) (h : 0 < n) :
    2 ^ ilog2 n n ≤ n ∧ n < 2 ^ (ilog2 n n + 1) :=
  ilog2_spec n n h (Nat.lt_two_pow n)

theorem two_zpow_toNat (k : ℤ) (h : 0 ≤ k) : (2 : ℚ) ^ k = ((2 ^ k.toNat : Nat) : ℚ) := by
  have : (2 : ℚ) ^ k = (2 : ℚ) ^ ((k.toNat : ℕ) : ℤ) := by rw [Int.toNat_of_nonneg h]
  rw [this, zpow_natCast]; push_cast; rfl

theorem two_zpow_neg_toNat (k : ℤ) (h : k ≤ 0) :
    (2 : ℚ) ^ k = (((2 ^ (-k).toNat : Nat) : ℚ))⁻¹ := by
  have : (2 : ℚ) ^ k = ((2 : ℚ) ^ (-k))⁻¹ := by rw [zpow_neg, inv_inv]
  rw [this, two_zpow_toNat (-k) (by omega)]

theorem floorLog2_spec (n d : Nat) (hn : 0 < n) (hd : 0 < d) :
    (2 : ℚ) ^ floorLog2 n d ≤ (n : ℚ) / d ∧ (n : ℚ) / d < (2 : ℚ) ^ (floorLog2 n d + 1) := by
  obtain ⟨ha1, ha2⟩ := ilog2_self n hn
  obtain ⟨hb1, hb2⟩ := ilog2_self d hd
  have hdq : (0 : ℚ) < d := by exact_mod_cast hd
  have hnq : (0 : ℚ) < n := by exact_mod_cast hn
  have h2 : (2 : ℚ) ≠ 0 := by norm_num
  have hqa1 : (2 : ℚ) ^ ((ilog2 n n : ℕ) : ℤ) ≤ n := by rw [zpow_natCast]; exact_mod_cast ha1
  have hqa2 : (n : ℚ) < (2 : ℚ) ^ (((ilog2 n n : ℕ) : ℤ) + 1) := by
    have : (n : ℚ) < (2 : ℚ) ^ (((ilog2 n n + 1 : ℕ)) : ℤ) := by
      rw [zpow_natCast]; exact_mod_cast ha2
    simpa using this
  have hqb1 : (2 : ℚ) ^ ((ilog2 d d : ℕ) : ℤ) ≤ d := by rw [zpow_natCast]; exact_mod_cast hb1
  have hqb2 : (d : ℚ) < (2 : ℚ) ^ (((ilog2 d d : ℕ) : ℤ) + 1) := by
    have : (d : ℚ) < (2 : ℚ) ^ (((ilog2 d d + 1 : ℕ)) : ℤ) := by
      rw [zpow_natCast]; exact_mod_cast hb2
    simpa using this
  generalize hA : ((ilog2 n n : ℕ) : ℤ) = a at hqa1 hqa2
  generalize hB : ((ilog2 d d : ℕ) : ℤ) = b at hqb1 hqb2
  have hpa : (0 : ℚ) < 2 ^ a := zpow_pos (by norm_num) a
  have hpb : (0 : ℚ) < 2 ^ b := zpow_pos (by norm_num) b
  -- coarse bounds
  have hup : (n : ℚ) / d < (2 : ℚ) ^ (a - b + 1) := by
    rw [div_lt_iff₀ hdq]
    have e : (2 : ℚ) ^ (a - b + 1) * 2 ^ b = 2 ^ (a + 1) := by
      rw [← zpow_add₀ h2]; congr 1; ring
    calc (n : ℚ) < 2 ^ (a + 1) := hqa2
      _ = (2 : ℚ) ^ (a - b + 1) * 2 ^ b := e.symm
      _ ≤ (2 : ℚ) ^ (a - b + 1) * d :=
        mul_le_mul_of_nonneg_left hqb1 (le_of_lt (zpow_pos (by norm_num) _))
  have hlo : (2 : ℚ) ^ (a - b - 1) ≤ (n : ℚ) / d := by
    rw [le_div_iff₀ hdq]
    have e : (2 : ℚ) ^ (a - b - 1) * 2 ^ (b + 1) = 2 ^ a := by
      rw [← zpow_add₀ h2]; congr 1; ring
    calc (2 : ℚ) ^ (a - b - 1) * d ≤ (2 : ℚ) ^ (a - b - 1) * 2 ^ (b + 1) :=
        mul_le_mul_of_nonneg_left (le_of_lt hqb2) (le_of_lt (zpow_pos (by norm_num) _))
      _ = 2 ^ a := e
      _ ≤ n := hqa1
  have hC : (if 0 ≤ a - b then d * 2 ^ (a - b).toNat ≤ n else d ≤ n * 2 ^ (-(a - b)).toNat) ↔
      (2 : ℚ) ^ (a - b) ≤ (n : ℚ) / d := by
    by_cases hk : 0 ≤ a - b
    · rw [if_pos hk, two_zpow_toNat _ hk, le_div_iff₀ hdq]
      constructor
      · intro h
        have : ((d * 2 ^ (a - b).toNat : Nat) : ℚ) ≤ n := by exact_mod_cast h
        push_cast at this ⊢; linarith
      · intro h
        have : ((d * 2 ^ (a - b).toNat : Nat) : ℚ) ≤ n := by push_cast at h ⊢; linarith
        exact_mod_cast this
    · rw [if_neg hk, two_zpow_neg_toNat _ (by omega), le_div_iff₀ hdq]
      have hp : (0 : ℚ) < ((2 ^ (-(a - b)).toNat : Nat) : ℚ) := by positivity
      rw [inv_mul_le_iff₀ hp]
      constructor
      · intro h
        have : ((d : Nat) : ℚ) ≤ ((n * 2 ^ (-(a - b)).toNat : Nat) : ℚ) := by exact_mod_cast h
        push_cast at this ⊢; linarith
      · intro h
        have : ((d : Nat) : ℚ) ≤ ((n * 2 ^ (-(a - b)).toNat : Nat) : ℚ) := by
          push_cast at h ⊢; linarith
        exact_mod_cast this
  unfold floorLog2
  simp only [hA, hB]
  by_cases hc : (2 : ℚ) ^ (a - b) ≤ (n : ℚ) / d
  · rw [if_pos (hC.2 hc)]
    exact ⟨hc, hup⟩
  · rw [if_neg (fun h => hc (hC.1 h))]
    refine ⟨hlo, ?_⟩
    have : a - b - 1 + 1 = a - b := by ring
    rw [this]; exact lt_of_not_le hc

theorem scaledRne_nearest (n d : Nat) (hd : 0 < d) (e : ℤ) (k : ℤ) :
    |((scaledRne n d e : Nat) : ℚ) - (n : ℚ) / d / (2 : ℚ) ^ e| ≤ |(k : ℚ) - (n : ℚ) / d / (2 : ℚ) ^ e| ∧
    (|((scaledRne n d e : Nat) : ℚ) - (n : ℚ) / d / (2 : ℚ) ^ e| = |(k : ℚ) - (n : ℚ) / d / (2 : ℚ) ^ e| →
      k ≠ (scaledRne n d e : ℤ) → scaledRne n d e % 2 = 0) := by
  unfold scaledRne
  by_cases he : 0 ≤ e
  · rw [if_pos he]
    have h := rneDiv_nearest n (d * 2 ^ e.toNat) (by positivity) k
    have e1 : (n : ℚ) / ((d * 2 ^ e.toNat : Nat) : ℚ) = (n : ℚ) / d / (2 : ℚ) ^ e := by
      rw [two_zpow_toNat e he]; push_cast; rw [div_div]
    rw [e1] at h
    exact h
  · rw [if_neg he]
    have h := rneDiv_nearest (n * 2 ^ (-e).toNat) d hd k
    have e1 : ((n * 2 ^ (-e).toNat : Nat) : ℚ) / (d : ℚ) = (n : ℚ) / d / (2 : ℚ) ^ e := by
      rw [two_zpow_neg_toNat e (by omega)]; push_cast; field_simp
    rw [e1] at h
    exact h

theorem binadeExp_bounds (fmt : Format) (hp : 1 ≤ fmt.prec) (n d : Nat) (hn : 0 < n)
    (hd : 0 < d) :
    fmt.emin ≤ binadeExp fmt n d ∧
    (n : ℚ) / d / (2 : ℚ) ^ binadeExp fmt n d < (2 : ℚ) ^ fmt.prec ∧
    (fmt.emin < binadeExp fmt n d →
      (2 : ℚ) ^ (fmt.prec - 1) ≤ (n : ℚ) / d / (2 : ℚ) ^ binadeExp fmt n d) := by
  obtain ⟨h1, h2⟩ := floorLog2_spec n d hn hd
  have h20 : (2 : ℚ) ≠ 0 := by norm_num
  have hpos : ∀ z : ℤ, (0 : ℚ) < (2 : ℚ) ^ z := fun z => zpow_pos (by norm_num) z
  refine ⟨le_max_left _ _, ?_, ?_⟩
  · rw [div_lt_iff₀ (hpos _)]
    have hle : floorLog2 n d + 1 ≤ (fmt.prec : ℤ) + binadeExp fmt n d := by
      have := le_max_right fmt.emin (floorLog2 n d - ((fmt.prec : Int) - 1))
      unfold binadeExp; omega
    calc (n : ℚ) / d < (2 : ℚ) ^ (floorLog2 n d + 1) := h2
      _ ≤ (2 : ℚ) ^ ((fmt.prec : ℤ) + binadeExp fmt n d) :=
        zpow_le_zpow_right₀ (by norm_num) hle
      _ = (2 : ℚ) ^ fmt.prec * (2 : ℚ) ^ binadeExp fmt n d := by
        rw [zpow_add₀ h20, zpow_natCast]
  · intro hlt
    have heq : binadeExp fmt n d = floorLog2 n d - ((fmt.prec : Int) - 1) := by
      unfold binadeExp at hlt ⊢
      rcases max_choice fmt.emin (floorLog2 n d - ((fmt.prec : Int) - 1)) with h | h
      · rw [h] at hlt; omega
      · exact h
    rw [le_div_iff₀ (hpos _)]
    have hcast : ((fmt.prec - 1 : ℕ) : ℤ) = (fmt.prec : ℤ) - 1 := by omega
    calc (2 : ℚ) ^ (fmt.prec - 1) * (2 : ℚ) ^ binadeExp fmt n d
        = (2 : ℚ) ^ (((fmt.prec - 1 : ℕ) : ℤ) + binadeExp fmt n d) := by
          rw [zpow_add₀ h20, zpow_natCast]
      _ = (2 : ℚ) ^ floorLog2 n d := by congr 1; rw [hcast, heq]; ring
      _ ≤ (n : ℚ) / d := h1

theorem grid_nearest (p : Nat) (hp : 1 ≤ p) (t : ℚ) (m0 : Nat)
    (H1 : ∀ k : ℤ, |(m0 : ℚ) - t| ≤ |(k : ℚ) - t| ∧
      (|(m0 : ℚ) - t| = |(k : ℚ) - t| → k ≠ (m0 : ℤ) → m0 % 2 = 0))
    (δ : ℤ) (H2 : δ < 0 → (2 : ℚ) ^ (p - 1) ≤ t) (M : ℤ) (hM : |M| < 2 ^ p) :
    |(m0 : ℚ) - t| ≤ |(M : ℚ) * (2 : ℚ) ^ δ - t| ∧
    (|(m0 : ℚ) - t| = |(M : ℚ) * (2 : ℚ) ^ δ - t| → (M : ℚ) * (2 : ℚ) ^ δ ≠ m0 → m0 % 2 = 0) := by
  by_cases hδ : 0 ≤ δ
  · have e1 : (M : ℚ) * (2 : ℚ) ^ δ = ((M * 2 ^ δ.toNat : ℤ) : ℚ) := by
      rw [two_zpow_toNat δ hδ]; push_cast; rfl
    rw [e1]
    obtain ⟨h1, h2⟩ := H1 (M * 2 ^ δ.toNat)
    refine ⟨h1, fun heq hne => h2 heq ?_⟩
    intro hk
    apply hne
    rw [hk]; norm_cast
  · have hδ' : δ < 0 := by omega
    have ht := H2 hδ'
    have hhalf : (2 : ℚ) ^ δ ≤ 1 / 2 := by
      have : (2 : ℚ) ^ δ ≤ (2 : ℚ) ^ (-1 : ℤ) := zpow_le_zpow_right₀ (by norm_num) (by omega)
      simpa using this
    have hpos : (0 : ℚ) < (2 : ℚ) ^ δ := zpow_pos (by norm_num) δ
    have hMq : |(M : ℚ)| ≤ (2 : ℚ) ^ p - 1 := by
      have h1 : |M| ≤ 2 ^ p - 1 := by omega
      have h2 : ((|M| : ℤ) : ℚ) ≤ ((2 ^ p - 1 : ℤ) : ℚ) := by exact_mod_cast h1
      rw [Int.cast_abs] at h2
      push_cast at h2
      exact h2
    have hpp : (2 : ℚ) ^ p = 2 * (2 : ℚ) ^ (p - 1) := by
      obtain ⟨q, rfl⟩ : ∃ q, p = q + 1 := ⟨p - 1, by omega⟩
      rw [pow_succ]; simp; ring
    have hu : |(M : ℚ) * (2 : ℚ) ^ δ| ≤ (2 : ℚ) ^ (p - 1) - 1 / 2 := by
      rw [abs_mul, abs_of_pos hpos]
      have hnn : (0 : ℚ) ≤ |(M : ℚ)| := abs_nonneg _
      calc |(M : ℚ)| * (2 : ℚ) ^ δ ≤ |(M : ℚ)| * (1 / 2) := mul_le_mul_of_nonneg_left hhalf hnn
        _ ≤ ((2 : ℚ) ^ p - 1) * (1 / 2) := mul_le_mul_of_nonneg_right hMq (by norm_num)
        _ = (2 : ℚ) ^ (p - 1) - 1 / 2 := by rw [hpp]; ring
    have hule : (M : ℚ) * (2 : ℚ) ^ δ ≤ (2 : ℚ) ^ (p - 1) - 1 / 2 := le_trans (le_abs_self _) hu
    have habs : |(M : ℚ) * (2 : ℚ) ^ δ - t| = t - (M : ℚ) * (2 : ℚ) ^ δ := by
      rw [abs_of_nonpos (by linarith)]; ring
    obtain ⟨h1, _⟩ := H1 (2 ^ (p - 1))
    have hk : |(((2 ^ (p - 1) : ℤ)) : ℚ) - t| = t - (2 : ℚ) ^ (p - 1) := by
      push_cast
      rw [abs_of_nonpos (by linarith)]; ring
    rw [hk] at h1
    rw [habs]
    refine ⟨by linarith, fun heq => ?_⟩
    exfalso; linarith

theorem value_nearest (p : Nat) (hp : 1 ≤ p) (x0 : ℚ) (e : ℤ) (m0 : Nat)
    (H1 : ∀ k : ℤ, |(m0 : ℚ) - x0 / (2 : ℚ) ^ e| ≤ |(k : ℚ) - x0 / (2 : ℚ) ^ e| ∧
      (|(m0 : ℚ) - x0 / (2 : ℚ) ^ e| = |(k : ℚ) - x0 / (2 : ℚ) ^ e| →
        k ≠ (m0 : ℤ) → m0 % 2 = 0))
    (emin : ℤ) (H2 : emin < e → (2 : ℚ) ^ (p - 1) ≤ x0 / (2 : ℚ) ^ e)
    (σ τ : ℚ) (hσ : σ = 1 ∨ σ = -1) (hτ : τ = 1 ∨ τ = -1)
    (m1 : Nat) (e1 : ℤ) (hm1 : m1 < 2 ^ p) (he1 : emin ≤ e1) :
    |σ * m0 * (2 : ℚ) ^ e - σ * x0| ≤ |τ * m1 * (2 : ℚ) ^ e1 - σ * x0| ∧
    (|σ * m0 * (2 : ℚ) ^ e - σ * x0| = |τ * m1 * (2 : ℚ) ^ e1 - σ * x0| →
      τ * m1 * (2 : ℚ) ^ e1 ≠ σ * m0 * (2 : ℚ) ^ e → m0 % 2 = 0) := by
  have hP : (0 : ℚ) < (2 : ℚ) ^ e := zpow_pos (by norm_num) e
  have h20 : (2 : ℚ) ≠ 0 := by norm_num
  obtain ⟨M, hM1, hM2⟩ : ∃ M : ℤ, |M| < 2 ^ p ∧ τ * (m1 : ℚ) = σ * (M : ℚ) := by
    have hm : ((m1 : ℕ) : ℤ) < 2 ^ p := by exact_mod_cast hm1
    rcases hσ with rfl | rfl <;> rcases hτ with rfl | rfl
    · exact ⟨m1, by rw [abs_of_nonneg (by positivity)]; exact hm, by push_cast; ring⟩
    · exact ⟨-m1, by rw [abs_neg, abs_of_nonneg (by positivity)]; exact hm, by push_cast; ring⟩
    · exact ⟨-m1, by rw [abs_neg, abs_of_nonneg (by positivity)]; exact hm, by push_cast; ring⟩
    · exact ⟨m1, by rw [abs_of_nonneg (by positivity)]; exact hm, by push_cast; ring⟩
  have hσabs : |σ| = 1 := by rcases hσ with rfl | rfl <;> simp
  have hσ0 : σ ≠ 0 := by rcases hσ with rfl | rfl <;> norm_num
  have hsplit : (2 : ℚ) ^ e1 = (2 : ℚ) ^ (e1 - e) * (2 : ℚ) ^ e := by
    rw [← zpow_add₀ h20]; congr 1; ring
  have hL : |σ * m0 * (2 : ℚ) ^ e - σ * x0| = |(m0 : ℚ) - x0 / (2 : ℚ) ^ e| * (2 : ℚ) ^ e := by
    have : σ * m0 * (2 : ℚ) ^ e - σ * x0 = σ * (((m0 : ℚ) - x0 / (2 : ℚ) ^ e) * (2 : ℚ) ^ e) := by
      field_simp; ring
    rw [this, abs_mul, hσabs, one_mul, abs_mul, abs_of_pos hP]
  have hR : |τ * m1 * (2 : ℚ) ^ e1 - σ * x0|
      = |(M : ℚ) * (2 : ℚ) ^ (e1 - e) - x0 / (2 : ℚ) ^ e| * (2 : ℚ) ^ e := by
    have : τ * m1 * (2 : ℚ) ^ e1 - σ * x0
        = σ * (((M : ℚ) * (2 : ℚ) ^ (e1 - e) - x0 / (2 : ℚ) ^ e) * (2 : ℚ) ^ e) := by
      rw [hM2, hsplit]; field_simp; ring
    rw [this, abs_mul, hσabs, one_mul, abs_mul, abs_of_pos hP]
  obtain ⟨g1, g2⟩ := grid_nearest p hp (x0 / (2 : ℚ) ^ e) m0 H1 (e1 - e)
    (fun h => H2 (by omega)) M hM1
  rw [hL, hR]
  refine ⟨mul_le_mul_of_nonneg_right g1 (le_of_lt hP), fun heq hne => g2 ?_ ?_⟩
  · exact mul_right_cancel₀ (ne_of_gt hP) heq
  · intro hu
    apply hne
    rw [hM2, hsplit, mul_assoc σ, ← mul_assoc (M : ℚ), hu]; ring

theorem FP.toRat_finite (s : Bool) (m : Nat) (e : ℤ) :
    (FP.finite s m e).toRat = (if s then -1 else 1) * (m : ℚ) * (2 : ℚ) ^ e := rfl

/-- The sign factor of a sign bit. -/
theorem sign_cases (s : Bool) :
    ((if s then (-1 : ℚ) else 1) = 1 ∨ (if s then (-1 : ℚ) else 1) = -1) := by
  cases s <;> simp

theorem finite_nearest (fmt : Format) (hp : 1 ≤ fmt.prec) (s : Bool) (x0 : ℚ) (hx0 : 0 < x0)
    (e : ℤ) (m0 : Nat)
    (H1 : ∀ k : ℤ, |(m0 : ℚ) - x0 / (2 : ℚ) ^ e| ≤ |(k : ℚ) - x0 / (2 : ℚ) ^ e| ∧
      (|(m0 : ℚ) - x0 / (2 : ℚ) ^ e| = |(k : ℚ) - x0 / (2 : ℚ) ^ e| →
        k ≠ (m0 : ℤ) → m0 % 2 = 0))
    (H2 : fmt.emin < e → (2 : ℚ) ^ (fmt.prec - 1) ≤ x0 / (2 : ℚ) ^ e)
    (m : Nat) (er : ℤ) (hrep : FP.Representable fmt (FP.finite s m er))
    (hval : (m : ℚ) * (2 : ℚ) ^ er = (m0 : ℚ) * (2 : ℚ) ^ e)
    (heven : m0 % 2 = 0 → m % 2 = 0)
    (hthr : x0 < ((2 : ℚ) ^ fmt.prec - 1 / 2) * (2 : ℚ) ^ fmt.emax) :
    IsNearestEven fmt ((if s then -1 else 1) * x0) (FP.finite s m er) := by
  unfold IsNearestEven
  have hσ := sign_cases s
  refine ⟨hrep, ?_, ?_, ?_, ?_⟩
  · rw [abs_mul]
    have : |(if s then (-1 : ℚ) else 1)| = 1 := by cases s <;> simp
    rw [this, one_mul, abs_of_pos hx0]; exact hthr
  · intro h
    cases s
    · simp at h; linarith
    · rfl
  · intro h
    cases s
    · rfl
    · simp at h; linarith
  · intro y hy hyrep
    cases y with
    | inf _ => simp [FP.isFinite] at hy
    | nan => simp [FP.isFinite] at hy
    | finite s1 m1 e1 =>
      unfold FP.Representable at hyrep
      obtain ⟨hm1, he1, _, _⟩ := hyrep
      have key := value_nearest fmt.prec hp x0 e m0 H1 fmt.emin H2
        (if s then -1 else 1) (if s1 then -1 else 1) hσ (sign_cases s1) m1 e1 hm1 he1
      have hr : (FP.finite s m er).toRat = (if s then -1 else 1) * (m0 : ℚ) * (2 : ℚ) ^ e := by
        rw [FP.toRat_finite, mul_assoc, hval, ← mul_assoc]
      rw [hr, FP.toRat_finite]
      exact ⟨key.1, fun h1 h2 => heven (key.2 h1 h2)⟩

theorem sig_bounds (p : Nat) (t : ℚ) (m0 : Nat)
    (H1 : ∀ k : ℤ, |(m0 : ℚ) - t| ≤ |(k : ℚ) - t| ∧
      (|(m0 : ℚ) - t| = |(k : ℚ) - t| → k ≠ (m0 : ℤ) → m0 % 2 = 0)) :
    (t < (2 : ℚ) ^ p → m0 ≤ 2 ^ p) ∧ ((2 : ℚ) ^ (p - 1) ≤ t → 2 ^ (p - 1) ≤ m0) := by
  constructor
  · intro ht
    by_contra hc
    have h1 : 2 ^ p + 1 ≤ m0 := by omega
    have h2 : ((2 ^ p + 1 : ℕ) : ℚ) ≤ m0 := by exact_mod_cast h1
    push_cast at h2
    have h3 := (H1 (2 ^ p)).1
    push_cast at h3
    rw [abs_of_nonneg (by linarith), abs_of_nonneg (by linarith)] at h3
    linarith
  · intro ht
    by_contra hc
    have h1 : m0 + 1 ≤ 2 ^ (p - 1) := by omega
    have h2 : ((m0 + 1 : ℕ) : ℚ) ≤ ((2 ^ (p - 1) : ℕ) : ℚ) := by exact_mod_cast h1
    push_cast at h2
    have h3 := (H1 (2 ^ (p - 1))).1
    push_cast at h3
    rw [abs_of_nonpos (by linarith), abs_of_nonpos (by linarith)] at h3
    linarith

theorem threshold_pos (fmt : Format) :
    (0 : ℚ) < ((2 : ℚ) ^ fmt.prec - 1 / 2) * (2 : ℚ) ^ fmt.emax := by
  have h1 : (1 : ℚ) ≤ (2 : ℚ) ^ fmt.prec := one_le_pow₀ (by norm_num)
  have h2 : (0 : ℚ) < (2 : ℚ) ^ fmt.emax := zpow_pos (by norm_num) _
  have h3 : (0 : ℚ) < (2 : ℚ) ^ fmt.prec - 1 / 2 := by linarith
  exact mul_pos h3 h2

theorem roundRatio_nearest (fmt : Format) (hp : 2 ≤ fmt.prec) (he : fmt.emin ≤ fmt.emax)
    (s : Bool) (n d : Nat) (hd : 0 < d) :
    IsNearestEven fmt ((if s then -1 else 1) * ((n : ℚ) / d)) (roundRatio fmt s n d) := by
  have hp1 : 1 ≤ fmt.prec := by omega
  have h20 : (2 : ℚ) ≠ 0 := by norm_num
  have hpp : (2 : ℚ) ^ fmt.prec = 2 * (2 : ℚ) ^ (fmt.prec - 1) := by
    obtain ⟨q, hq⟩ : ∃ q, fmt.prec = q + 1 := ⟨fmt.prec - 1, by omega⟩
    rw [hq, pow_succ]; simp; ring
  have hppn : 2 ^ fmt.prec = 2 * 2 ^ (fmt.prec - 1) := by
    obtain ⟨q, hq⟩ : ∃ q, fmt.prec = q + 1 := ⟨fmt.prec - 1, by omega⟩
    rw [hq, pow_succ]; simp; ring
  have hpe : 2 ^ (fmt.prec - 1) = 2 * 2 ^ (fmt.prec - 2) := by
    obtain ⟨q, hq⟩ : ∃ q, fmt.prec = q + 2 := ⟨fmt.prec - 2, by omega⟩
    rw [hq]; simp [pow_succ]; ring
  have hone : (1 : ℚ) ≤ (2 : ℚ) ^ (fmt.prec - 1) := one_le_pow₀ (by norm_num)
  unfold roundRatio
  by_cases hn : n = 0
  · rw [if_pos hn, hn]
    unfold IsNearestEven
    simp only [Nat.cast_zero, zero_div, mul_zero, abs_zero, sub_zero, lt_irrefl, false_implies,
      true_and]
    refine ⟨⟨Nat.two_pow_pos _, le_refl _, he, Or.inl rfl⟩, threshold_pos fmt, ?_⟩
    intro y _ _
    rw [FP.toRat_finite]
    simp
  · rw [if_neg hn]
    have hn0 : 0 < n := Nat.pos_of_ne_zero hn
    have hx0 : (0 : ℚ) < (n : ℚ) / d := by positivity
    obtain ⟨hb1, hb2, hb3⟩ := binadeExp_bounds fmt hp1 n d hn0 hd
    have H1 := scaledRne_nearest n d hd (binadeExp fmt n d)
    obtain ⟨hs1, hs2⟩ := sig_bounds fmt.prec ((n : ℚ) / d / (2 : ℚ) ^ binadeExp fmt n d)
      (scaledRne n d (binadeExp fmt n d)) H1
    have hm_le := hs1 hb2
    simp only
    generalize hE : binadeExp fmt n d = e at *
    generalize hM : scaledRne n d e = m0 at *
    have hP : (0 : ℚ) < (2 : ℚ) ^ e := zpow_pos (by norm_num) e
    have hx : (n : ℚ) / d = (n : ℚ) / d / (2 : ℚ) ^ e * (2 : ℚ) ^ e := by field_simp; ring
    generalize ht : (n : ℚ) / d / (2 : ℚ) ^ e = t at *
    have hthr0 : (0 : ℚ) < (2 : ℚ) ^ fmt.prec - 1 / 2 := by linarith
    by_cases hc : m0 = 2 ^ fmt.prec
    · rw [if_pos hc]
      by_cases ho : fmt.emax < e + 1
      · -- carry and overflow
        rw [if_pos ho]
        unfold IsNearestEven
        have hσ : |(if s then (-1 : ℚ) else 1)| = 1 := by cases s <;> simp
        rw [abs_mul, hσ, one_mul, abs_of_pos hx0]
        refine ⟨?_, ?_⟩
        · have h3 := (H1 (2 ^ fmt.prec - 1)).1
          rw [hc] at h3
          push_cast at h3
          have ht2 : (2 : ℚ) ^ fmt.prec - 1 / 2 ≤ t := by
            by_contra hcon
            push_neg at hcon
            rw [abs_of_nonneg (by linarith)] at h3
            rcases le_or_lt t ((2 : ℚ) ^ fmt.prec - 1) with h4 | h4
            · rw [abs_of_nonneg (by linarith)] at h3; linarith
            · rw [abs_of_nonpos (by linarith)] at h3; linarith
          have hee : (2 : ℚ) ^ fmt.emax ≤ (2 : ℚ) ^ e :=
            zpow_le_zpow_right₀ (by norm_num) (by omega)
          rw [hx]
          calc ((2 : ℚ) ^ fmt.prec - 1 / 2) * (2 : ℚ) ^ fmt.emax
              ≤ ((2 : ℚ) ^ fmt.prec - 1 / 2) * (2 : ℚ) ^ e :=
                mul_le_mul_of_nonneg_left hee (le_of_lt hthr0)
            _ ≤ t * (2 : ℚ) ^ e := mul_le_mul_of_nonneg_right ht2 (le_of_lt hP)
        · cases s
          · simp; linarith
          · simp; linarith
      · -- carry, finite
        rw [if_neg ho]
        apply finite_nearest fmt hp1 s _ hx0 e m0 (by rw [ht]; exact H1) (by rw [ht]; exact hb3)
        · have hpos := Nat.two_pow_pos (fmt.prec - 1)
          exact ⟨by rw [hppn]; omega, by omega, by omega, Or.inr (le_refl _)⟩
        · rw [hc, zpow_add₀ h20]; push_cast; rw [hpp]; simp; ring
        · intro _; omega
        · have hee : (2 : ℚ) ^ (e + 1) ≤ (2 : ℚ) ^ fmt.emax :=
            zpow_le_zpow_right₀ (by norm_num) (by omega)
          have e2 : (2 : ℚ) ^ (e + 1) = 2 * (2 : ℚ) ^ e := by rw [zpow_add₀ h20]; simp; ring
          rw [hx]
          calc t * (2 : ℚ) ^ e < (2 : ℚ) ^ fmt.prec * (2 : ℚ) ^ e :=
                mul_lt_mul_of_pos_right hb2 hP
            _ = (2 : ℚ) ^ (fmt.prec - 1) * (2 : ℚ) ^ (e + 1) := by rw [hpp, e2]; ring
            _ ≤ (2 : ℚ) ^ (fmt.prec - 1) * (2 : ℚ) ^ fmt.emax :=
                mul_le_mul_of_nonneg_left hee (by positivity)
            _ < ((2 : ℚ) ^ fmt.prec - 1 / 2) * (2 : ℚ) ^ fmt.emax := by
                apply mul_lt_mul_of_pos_right _ (zpow_pos (by norm_num) _)
                rw [hpp]; linarith
    · rw [if_neg hc]
      by_cases ho : fmt.emax < e
      · -- overflow without carry
        rw [if_pos ho]
        unfold IsNearestEven
        have hσ : |(if s then (-1 : ℚ) else 1)| = 1 := by cases s <;> simp
        rw [abs_mul, hσ, one_mul, abs_of_pos hx0]
        refine ⟨?_, ?_⟩
        · have ht2 := hb3 (by omega)
          have hee : (2 : ℚ) ^ (fmt.emax + 1) ≤ (2 : ℚ) ^ e :=
            zpow_le_zpow_right₀ (by norm_num) (by omega)
          have e2 : (2 : ℚ) ^ (fmt.emax + 1) = 2 * (2 : ℚ) ^ fmt.emax := by
            rw [zpow_add₀ h20]; simp; ring
          have hpm : (0 : ℚ) < (2 : ℚ) ^ fmt.emax := zpow_pos (by norm_num) _
          rw [hx]
          calc ((2 : ℚ) ^ fmt.prec - 1 / 2) * (2 : ℚ) ^ fmt.emax
              ≤ (2 : ℚ) ^ fmt.prec * (2 : ℚ) ^ fmt.emax :=
                mul_le_mul_of_nonneg_right (by linarith) (le_of_lt hpm)
            _ = (2 : ℚ) ^ (fmt.prec - 1) * (2 : ℚ) ^ (fmt.emax + 1) := by rw [hpp, e2]; ring
            _ ≤ (2 : ℚ) ^ (fmt.prec - 1) * (2 : ℚ) ^ e :=
                mul_le_mul_of_nonneg_left hee (by positivity)
            _ ≤ t * (2 : ℚ) ^ e := mul_le_mul_of_nonneg_right ht2 (le_of_lt hP)
        · cases s
          · simp; linarith
          · simp; linarith
      · -- the common case
        rw [if_neg ho]
        have hm_lt : m0 < 2 ^ fmt.prec := by omega
        apply finite_nearest fmt hp1 s _ hx0 e m0 (by rw [ht]; exact H1) (by rw [ht]; exact hb3)
        · refine ⟨hm_lt, hb1, by omega, ?_⟩
          by_cases hmin : e = fmt.emin
          · exact Or.inl hmin
          · exact Or.inr (hs2 (hb3 (by omega)))
        · rfl
        · exact id
        · have ht2 : t < (2 : ℚ) ^ fmt.prec - 1 / 2 := by
            by_contra hcon
            push_neg at hcon
            have hmq : ((m0 + 1 : ℕ) : ℚ) ≤ ((2 ^ fmt.prec : ℕ) : ℚ) := by exact_mod_cast hm_lt
            push_cast at hmq
            obtain ⟨h3, h4⟩ := H1 (2 ^ fmt.prec)
            push_cast at h3 h4
            rw [abs_of_nonpos (by linarith), abs_of_nonneg (by linarith)] at h3 h4
            have h5 : (m0 : ℚ) = (2 : ℚ) ^ fmt.prec - 1 := by linarith
            have h6 : t = (2 : ℚ) ^ fmt.prec - 1 / 2 := by linarith
            have h7 : m0 % 2 = 0 := h4 (by rw [h5, h6]; ring) (by
              intro h8
              have : (2 : ℤ) ^ fmt.prec = ((2 ^ fmt.prec : ℕ) : ℤ) := by push_cast; rfl
              rw [this] at h8
              have : 2 ^ fmt.prec = m0 := by exact_mod_cast h8
              omega)
            have h8 : ((m0 + 1 : ℕ) : ℚ) = ((2 ^ fmt.prec : ℕ) : ℚ) := by push_cast; linarith
            have h9 : m0 + 1 = 2 ^ fmt.prec := by exact_mod_cast h8
            omega
          have hee : (2 : ℚ) ^ e ≤ (2 : ℚ) ^ fmt.emax :=
            zpow_le_zpow_right₀ (by norm_num) (by omega)
          rw [hx]
          calc t * (2 : ℚ) ^ e < ((2 : ℚ) ^ fmt.prec - 1 / 2) * (2 : ℚ) ^ e :=
                mul_lt_mul_of_pos_right ht2 hP
            _ ≤ ((2 : ℚ) ^ fmt.prec - 1 / 2) * (2 : ℚ) ^ fmt.emax :=
                mul_le_mul_of_nonneg_left hee (le_of_lt hthr0)

theorem static_cast_GLfloat_nearest (s : Bool) (m : Nat) (e : ℤ) :
    IsNearestEven binary32 (FP.finite s m e).toRat (static_cast_GLfloat (FP.finite s m e)) := by
  rw [FP.toRat_finite]
  simp only [static_cast_GLfloat]
  by_cases he : 0 ≤ e
  · rw [if_pos he]
    have h := roundRatio_nearest binary32 (by decide) (by decide) s (m * 2 ^ e.toNat) 1
      (by decide)
    have e1 : ((m * 2 ^ e.toNat : Nat) : ℚ) / ((1 : Nat) : ℚ) = (m : ℚ) * (2 : ℚ) ^ e := by
      rw [two_zpow_toNat e he]; push_cast; ring
    rw [e1, ← mul_assoc] at h
    exact h
  · rw [if_neg he]
    have h := roundRatio_nearest binary32 (by decide) (by decide) s m (2 ^ (-e).toNat)
      (by positivity)
    have e1 : (m : ℚ) / ((2 ^ (-e).toNat : Nat) : ℚ) = (m : ℚ) * (2 : ℚ) ^ e := by
      rw [two_zpow_neg_toNat e (by omega)]; push_cast; rw [div_eq_mul_inv]
    rw [e1, ← mul_assoc] at h
    exact h

/-! ## The loop -/

theorem resize_length (v : List GLfloat) (n : Nat) : (resize v n).length = n := by
  unfold resize
  simp only [List.length_append, List.length_take, List.length_replicate]
  omega

theorem resizeStep_length (tmp : List GLfloat) (count : Nat) :
    (resizeStep tmp count).length = max tmp.length count := by
  unfold resizeStep
  split
  · rw [resize_length]; omega
  · omega

theorem resizeStep_drop (tmp : List GLfloat) (count : Nat) :
    (resizeStep tmp count).drop count = tmp.drop count := by
  unfold resizeStep
  split
  · rename_i h
    rw [List.drop_of_length_le (by rw [resize_length]), List.drop_of_length_le (by omega)]
  · rfl

theorem convertLoop_eq (src : List GLdouble) (k : Nat) :
    ∀ (i : Nat) (tmp : List GLfloat), i + k ≤ src.length → i + k ≤ tmp.length →
      convertLoop src k i tmp =
        some (i + k, tmp.take i ++ ((src.drop i).take k).map static_cast_GLfloat
          ++ tmp.drop (i + k)) := by
  induction k with
  | zero =>
    intro i tmp _ _
    simp [convertLoop]
  | succ k ih =>
    intro i tmp hs ht
    have hi : i < src.length := by omega
    have hti : i < tmp.length := by omega
    rw [convertLoop, List.getElem?_eq_getElem hi]
    simp only [hti, if_true]
    rw [ih (i + 1) _ (by omega) (by rw [List.length_set]; omega)]
    have hset : tmp.set i (static_cast_GLfloat src[i])
        = (tmp.take i ++ [static_cast_GLfloat src[i]]) ++ tmp.drop (i + 1) := by
      rw [List.set_eq_take_append_cons_drop, if_pos hti]; simp
    have hlen : (tmp.take i ++ [static_cast_GLfloat src[i]]).length = i + 1 := by
      simp [List.length_take]; omega
    have h1 : (tmp.set i (static_cast_GLfloat src[i])).take (i + 1)
        = tmp.take i ++ [static_cast_GLfloat src[i]] := by
      rw [hset, List.take_left' hlen]
    have h2 : (tmp.set i (static_cast_GLfloat src[i])).drop (i + 1 + k) = tmp.drop (i + (k + 1)) := by
      rw [hset, ← List.drop_drop, List.drop_left' hlen, List.drop_drop]
      congr 1; omega
    have h3 : (src.drop i).take (k + 1) = src[i] :: (src.drop (i + 1)).take k := by
      rw [List.drop_eq_getElem_cons hi, List.take_succ_cons]
    rw [h1, h2, h3]
    simp [Nat.add_assoc, Nat.add_comm 1 k]

theorem convert_eq (tmp : List GLfloat) (src : List GLdouble) (count : Nat)
    (h : count ≤ src.length) :
    convert tmp src count = some ((src.take count).map static_cast_GLfloat ++ tmp.drop count) := by
  unfold convert
  rw [convertLoop_eq src count 0 _ (by omega) (by rw [resizeStep_length]; omega)]
  simp [resizeStep_drop]

theorem convertLoop_none (src : List GLdouble) (k : Nat) :
    ∀ (i : Nat) (tmp : List GLfloat), i ≤ src.length → src.length < i + k →
      convertLoop src k i tmp = none := by
  induction k with
  | zero => intro i tmp h1 h2; omega
  | succ k ih =>
    intro i tmp h1 h2
    rw [convertLoop]
    by_cases hi : i < src.length
    · rw [List.getElem?_eq_getElem hi]
      by_cases hti : i < tmp.length
      · simp only [hti, if_true]
        exact ih (i + 1) _ (by omega) (by omega)
      · simp only [hti, if_false]
    · rw [List.getElem?_eq_none (by omega)]

theorem convert_isSome_iff (tmp : List GLfloat) (src : List GLdouble) (count : Nat) :
    (convert tmp src count).isSome = true ↔ count ≤ src.length := by
  constructor
  · intro h
    by_contra hc
    have : convert tmp src count = none := by
      unfold convert
      rw [convertLoop_none src count 0 _ (by omega) (by omega)]; rfl
    rw [this] at h
    exact absurd h (by decide)
  · intro h
    rw [convert_eq tmp src count h]; rfl

theorem convert_length (tmp : List GLfloat) (src : List GLdouble) (count : Nat)
    (h : count ≤ src.length) :
    ((src.take count).map static_cast_GLfloat ++ tmp.drop count).length
      = max tmp.length count := by
  simp only [List.length_append, List.length_map, List.length_take, List.length_drop]
  omega

theorem view_convert (tmp : List GLfloat) (src : List GLdouble) (count : Nat)
    (h : count ≤ src.length) :
    readFloats ((src.take count).map static_cast_GLfloat ++ tmp.drop count) count
      = (src.take count).map static_cast_GLfloat := by
  unfold readFloats
  apply List.take_left'
  simp only [List.length_map, List.length_take]
  omega

theorem runThread_eq (calls : List Call) :
    ∀ (tmp : List GLfloat), (∀ c ∈ calls, c.count ≤ c.src.length) →
      ∃ f, runThread tmp calls = some f ∧
        f.length = calls.foldl (fun a c => max a c.count) tmp.length ∧ tmp.length ≤ f.length := by
  induction calls with
  | nil => intro tmp _; exact ⟨tmp, rfl, rfl, Nat.le_refl _⟩
  | cons c cs ih =>
    intro tmp h
    have hc : c.count ≤ c.src.length := h c (List.mem_cons_self _ _)
    obtain ⟨f, hf, hl, hle⟩ := ih ((c.src.take c.count).map static_cast_GLfloat ++ tmp.drop c.count)
      (fun d hd => h d (List.mem_cons_of_mem _ hd))
    refine ⟨f, ?_, ?_, ?_⟩
    · rw [runThread, convert_eq tmp c.src c.count hc]; exact hf
    · rw [hl, convert_length tmp c.src c.count hc]; rfl
    · rw [convert_length tmp c.src c.count hc] at hle; omega

theorem convert_zero (tmp : List GLfloat) (src : List GLdouble) : convert tmp src 0 = some tmp := by
  unfold convert resizeStep
  simp [convertLoop]

theorem narrowed_getElem? (t : List GLfloat) (s : List GLdouble) (n : Nat) (hn : n ≤ s.length)
    (j : Nat) (hj : j < n) :
    ((s.take n).map static_cast_GLfloat ++ t)[j]? = s[j]?.map static_cast_GLfloat := by
  rw [List.getElem?_append_left (by simp only [List.length_map, List.length_take]; omega),
    List.getElem?_map, List.getElem?_take, if_pos hj]

/-! ## Claims on `convert` -/

/-- C2: after `convert(src, count)` the element count of `tmp` is the maximum of
its previous element count and `count` (exactly `count` when it was smaller,
unchanged otherwise); over any sequence of calls of one thread it never shrinks;
and after calls with `count1` and `count2` (in particular `count1 ≤ count2`)
and then `count3 < count2`, the third view has exactly `count3` elements while
`tmp` still has at least `count2`. -/
theorem C2_size_is_max_never_shrinks (tmp : List GLfloat) (src : List GLdouble) (count : Nat)
    (h : count ≤ src.length) (calls : List Call) (hcalls : ∀ c ∈ calls, c.count ≤ c.src.length)
    (A B C : List GLdouble) (count1 count2 count3 : Nat)
    (hA : count1 ≤ A.length) (hB : count2 ≤ B.length) (hC : count3 ≤ C.length)
    (h32 : count3 < count2) :
    (∃ f, convert tmp src count = some f ∧ f.length = max tmp.length count ∧
      (tmp.length < count → f.length = count) ∧ (count ≤ tmp.length → f.length = tmp.length)) ∧
    (∃ f, runThread tmp calls = some f ∧
      f.length = calls.foldl (fun a c => max a c.count) tmp.length ∧ tmp.length ≤ f.length) ∧
    (∃ f1 f2 f3, convert tmp A count1 = some f1 ∧ convert f1 B count2 = some f2 ∧
      convert f2 C count3 = some f3 ∧ (ConversionView f3 count3).length = count3 ∧
      count2 ≤ f3.length ∧ f3.length = f2.length ∧ tmp.length ≤ f1.length ∧
      f1.length ≤ f2.length) := by
  refine ⟨⟨_, convert_eq tmp src count h, convert_length tmp src count h, ?_, ?_⟩,
    runThread_eq calls tmp hcalls,
    ⟨_, _, _, convert_eq tmp A count1 hA, convert_eq _ B count2 hB, convert_eq _ C count3 hC,
      ?_, ?_, ?_, ?_, ?_⟩⟩
  · intro hlt; rw [convert_length tmp src count h]; omega
  · intro hle; rw [convert_length tmp src count h]; omega
  · unfold ConversionView
    rw [view_convert _ C count3 hC, List.length_map, List.length_take]; omega
  · rw [convert_length _ C count3 hC, convert_length _ B count2 hB]; omega
  · rw [convert_length _ C count3 hC, convert_length _ B count2 hB]; omega
  · rw [convert_length _ A count1 hA]; omega
  · rw [convert_length _ B count2 hB]; omega

/-- Witness of C2: a fresh buffer, `convert` with 3 then 16 then 2 elements. -/
theorem C2_size_is_max_never_shrinks_witness :
    (∃ f, convert [] (List.replicate 3 FP.nan) 3 = some f ∧ f.length = max 0 3 ∧
      (0 < 3 → f.length = 3) ∧ (3 ≤ 0 → f.length = 0)) ∧
    (∃ f, runThread [] [⟨0, List.replicate 3 FP.nan, 3⟩, ⟨0, List.replicate 16 FP.nan, 2⟩] = some f ∧
      f.length = 3 ∧ 0 ≤ f.length) ∧
    (∃ f1 f2 f3, convert [] (List.replicate 3 FP.nan) 3 = some f1 ∧
      convert f1 (List.replicate 16 FP.nan) 16 = some f2 ∧
      convert f2 (List.replicate 2 FP.nan) 2 = some f3 ∧ (ConversionView f3 2).length = 2 ∧
      16 ≤ f3.length ∧ f3.length = f2.length ∧ 0 ≤ f1.length ∧ f1.length ≤ f2.length) :=
  C2_size_is_max_never_shrinks [] (List.replicate 3 FP.nan) 3 (by decide)
    [⟨0, List.replicate 3 FP.nan, 3⟩, ⟨0, List.replicate 16 FP.nan, 2⟩]
    (by decide) (List.replicate 3 FP.nan) (List.replicate 16 FP.nan) (List.replicate 2 FP.nan)
    3 16 2 (by decide) (by decide) (by decide) (by decide)

/-- C3: for every source `S` and every buffer, `convert(S, 0)` succeeds, runs no
loop iteration and so reads no element of `S` (it succeeds alike on a source
with no readable element), leaves `tmp` as it is, and its view is empty. -/
theorem C3_convert_zero (tmp : List GLfloat) (S : List GLdouble) :
    convert tmp S 0 = some tmp ∧
    convertLoop S 0 0 (resizeStep tmp 0) = some (0, tmp) ∧
    convert tmp S 0 = convert tmp [] 0 ∧
    convert [] S 0 = some [] ∧
    ConversionView tmp 0 = [] ∧ (ConversionView tmp 0).length = 0 := by
  have h : resizeStep tmp 0 = tmp := by unfold resizeStep; simp
  have h0 : ∀ S : List GLdouble, convert tmp S 0 = some tmp := by
    intro S; unfold convert; rw [h]; rfl
  refine ⟨h0 S, ?_, ?_, ?_, ?_, ?_⟩
  · rw [h]; rfl
  · rw [h0 S, h0 []]
  · rfl
  · unfold ConversionView readFloats; exact List.take_zero _
  · unfold ConversionView readFloats; rw [List.take_zero]; rfl

/-- C9: when `src` has at least `count` readable elements, the loop of `convert`
ends with its loop variable equal to `count` (one iteration for each of
`0, …, count - 1`), every index `i < count` it uses lies inside `tmp` as left by
the resize step and inside `src`, and `convert` returns a result: the
out-of-bounds branch is not taken. -/
theorem C9_in_bounds_and_terminates (tmp : List GLfloat) (src : List GLdouble) (count : Nat)
    (h : count ≤ src.length) :
    (∃ f, convertLoop src count 0 (resizeStep tmp count) = some (count, f) ∧
      convert tmp src count = some f) ∧
    (∀ i, i < count → i < (resizeStep tmp count).length ∧ i < src.length) ∧
    (convert tmp src count).isSome = true := by
  refine ⟨⟨_, ?_, convert_eq tmp src count h⟩, ?_, (convert_isSome_iff tmp src count).2 h⟩
  · rw [convertLoop_eq src count 0 _ (by omega) (by rw [resizeStep_length]; omega)]
    simp [resizeStep_drop]
  · intro i hi
    rw [resizeStep_length]
    omega

/-- Witness of C9: two elements converted into a fresh buffer. -/
theorem C9_in_bounds_and_terminates_witness :
    (∃ f, convertLoop [FP.nan, FP.inf true] 2 0 (resizeStep [] 2) = some (2, f) ∧
      convert [] [FP.nan, FP.inf true] 2 = some f) ∧
    (∀ i, i < 2 → i < (resizeStep [] 2).length ∧ i < [FP.nan, FP.inf true].length) ∧
    (convert [] [FP.nan, FP.inf true] 2).isSome = true :=
  C9_in_bounds_and_terminates [] [FP.nan, FP.inf true] 2 (by decide)

/-- C10: when `count` is below the element count of `tmp`, `convert(src, count)`
leaves every element at an index `j ≥ count` as it was; after `convert(B, 16)`
and `convert(C, 2)` the elements `2..15` still hold the narrowing of
`B[2..15]`; and with `count = 0` the whole buffer is unchanged. -/
theorem C10_tail_unchanged (tmp : List GLfloat) (src : List GLdouble) (count : Nat)
    (h : count ≤ src.length) (hm : count < tmp.length)
    (B C : List GLdouble) (hB : 16 ≤ B.length) (hC : 2 ≤ C.length) :
    (∃ f, convert tmp src count = some f ∧ f.length = tmp.length ∧
      f.drop count = tmp.drop count ∧ (∀ j, count ≤ j → f[j]? = tmp[j]?)) ∧
    (∃ f1 f2, convert tmp B 16 = some f1 ∧ convert f1 C 2 = some f2 ∧
      (f2.drop 2).take 14 = ((B.drop 2).take 14).map static_cast_GLfloat ∧
      ∀ j, 2 ≤ j → j < 16 → f2[j]? = B[j]?.map static_cast_GLfloat) ∧
    convert tmp src 0 = some tmp := by
  have hdrop : ∀ (t : List GLfloat) (s : List GLdouble) (n : Nat), n ≤ s.length →
      ((s.take n).map static_cast_GLfloat ++ t.drop n).drop n = t.drop n := by
    intro t s n hn
    apply List.drop_left'
    simp only [List.length_map, List.length_take]; omega
  have hget : ∀ (t : List GLfloat) (s : List GLdouble) (n : Nat), n ≤ s.length →
      ∀ j, n ≤ j → ((s.take n).map static_cast_GLfloat ++ t.drop n)[j]? = t[j]? := by
    intro t s n hn j hj
    have := congrArg (fun l => l[j - n]?) (hdrop t s n hn)
    simp only [List.getElem?_drop] at this
    rwa [Nat.add_sub_cancel' hj] at this
  refine ⟨⟨_, convert_eq tmp src count h, ?_, hdrop tmp src count h, hget tmp src count h⟩,
    ⟨_, _, convert_eq tmp B 16 hB, convert_eq _ C 2 hC, ?_, ?_⟩, (convert_zero tmp src)⟩
  · rw [convert_length tmp src count h]; omega
  · rw [hdrop _ C 2 hC]
    apply List.ext_getElem?
    intro i
    rw [List.getElem?_take, List.getElem?_map, List.getElem?_take, List.getElem?_drop,
      List.getElem?_drop]
    by_cases hi : i < 14
    · rw [if_pos hi, if_pos hi, narrowed_getElem? _ B 16 hB (2 + i) (by omega)]
    · rw [if_neg hi, if_neg hi]; rfl
  · intro j h2 h16
    rw [hget _ C 2 hC j h2, narrowed_getElem? _ B 16 hB j h16]

/-- Witness of C10: a buffer of three elements, one element converted. -/
theorem C10_tail_unchanged_witness :
    (∃ f, convert [FP.nan, FP.inf true, FP.inf false] [FP.nan] 1 = some f ∧
      f.length = [FP.nan, FP.inf true, FP.inf false].length ∧
      f.drop 1 = [FP.nan, FP.inf true, FP.inf false].drop 1 ∧
      (∀ j, 1 ≤ j → f[j]? = [FP.nan, FP.inf true, FP.inf false][j]?)) ∧
    (∃ f1 f2, convert [FP.nan, FP.inf true, FP.inf false] (List.replicate 16 (FP.inf true)) 16
        = some f1 ∧ convert f1 [FP.nan, FP.nan] 2 = some f2 ∧
      (f2.drop 2).take 14
        = (((List.replicate 16 (FP.inf true)).drop 2).take 14).map static_cast_GLfloat ∧
      ∀ j, 2 ≤ j → j < 16 →
        f2[j]? = (List.replicate 16 (FP.inf true))[j]?.map static_cast_GLfloat) ∧
    convert [FP.nan, FP.inf true, FP.inf false] [FP.nan] 0
      = some [FP.nan, FP.inf true, FP.inf false] :=
  C10_tail_unchanged [FP.nan, FP.inf true, FP.inf false] [FP.nan] 1 (by decide) (by decide)
    (List.replicate 16 (FP.inf true)) [FP.nan, FP.nan] (by decide) (by decide)

/-! ## Claims on the forwarding helpers -/

theorem narrowed_length (v : List GLdouble) (n : Nat) (h : n ≤ v.length) :
    (narrowed v n).length = n := by
  unfold narrowed
  rw [List.length_map, List.length_take]; omega

theorem convert_narrowed (tmp : List GLfloat) (v : List GLdouble) (n : Nat) (h : n ≤ v.length) :
    convert tmp v n = some (narrowed v n ++ tmp.drop n) ∧
      readFloats (narrowed v n ++ tmp.drop n) n = narrowed v n :=
  ⟨convert_eq tmp v n h, view_convert tmp v n h⟩

theorem Uniform3dv_eq (loc : Int) (value : List GLdouble) (s : Ctx) (h : 3 ≤ value.length) :
    Uniform3dv loc value s = some ⟨narrowed value 3 ++ s.tmp.drop 3,
      s.gl ++ [GLCall.glUniform3fv loc 1 (narrowed value 3)]⟩ := by
  unfold Uniform3dv
  rw [(convert_narrowed s.tmp value 3 h).1, Option.map_some', Nat.mul_one,
    (convert_narrowed s.tmp value 3 h).2]

theorem Uniform4dv_eq (loc : Int) (value : List GLdouble) (s : Ctx) (h : 4 ≤ value.length) :
    Uniform4dv loc value s = some ⟨narrowed value 4 ++ s.tmp.drop 4,
      s.gl ++ [GLCall.glUniform4fv loc 1 (narrowed value 4)]⟩ := by
  unfold Uniform4dv
  rw [(convert_narrowed s.tmp value 4 h).1, Option.map_some', Nat.mul_one,
    (convert_narrowed s.tmp value 4 h).2]

theorem UniformMatrix4dv_eq (loc : Int) (value : List GLdouble) (s : Ctx)
    (h : 16 ≤ value.length) :
    UniformMatrix4dv loc value s = some ⟨narrowed value 16 ++ s.tmp.drop 16,
      s.gl ++ [GLCall.glUniformMatrix4fv loc 1 GL_FALSE (narrowed value 16)]⟩ := by
  unfold UniformMatrix4dv
  rw [(convert_narrowed s.tmp value 16 h).1, Option.map_some', Nat.mul_one,
    (convert_narrowed s.tmp value 16 h).2]

theorem UniformMatrix3dv_eq (loc : Int) (value : List GLdouble) (s : Ctx)
    (h : 9 ≤ value.length) :
    UniformMatrix3dv loc value s = some ⟨narrowed value 9 ++ s.tmp.drop 9,
      s.gl ++ [GLCall.glUniformMatrix3fv loc 1 GL_FALSE (narrowed value 9)]⟩ := by
  unfold UniformMatrix3dv
  rw [(convert_narrowed s.tmp value 9 h).1, Option.map_some', Nat.mul_one,
    (convert_narrowed s.tmp value 9 h).2]

theorem VertexAttrib2dv_as_fv_eq (loc : Nat) (v : List GLdouble) (s : Ctx) (h : 2 ≤ v.length) :
    VertexAttrib2dv_as_fv loc v s = some ⟨narrowed v 2 ++ s.tmp.drop 2,
      s.gl ++ [GLCall.glVertexAttrib2fv loc (narrowed v 2)]⟩ := by
  unfold VertexAttrib2dv_as_fv
  rw [(convert_narrowed s.tmp v 2 h).1, Option.map_some', (convert_narrowed s.tmp v 2 h).2]

theorem VertexAttrib3dv_as_fv_eq (loc : Nat) (v : List GLdouble) (s : Ctx) (h : 3 ≤ v.length) :
    VertexAttrib3dv_as_fv loc v s = some ⟨narrowed v 3 ++ s.tmp.drop 3,
      s.gl ++ [GLCall.glVertexAttrib3fv loc (narrowed v 3)]⟩ := by
  unfold VertexAttrib3dv_as_fv
  rw [(convert_narrowed s.tmp v 3 h).1, Option.map_some', (convert_narrowed s.tmp v 3 h).2]

theorem VertexAttrib4dv_as_fv_eq (loc : Nat) (v : List GLdouble) (s : Ctx) (h : 4 ≤ v.length) :
    VertexAttrib4dv_as_fv loc v s = some ⟨narrowed v 4 ++ s.tmp.drop 4,
      s.gl ++ [GLCall.glVertexAttrib4fv loc (narrowed v 4)]⟩ := by
  unfold VertexAttrib4dv_as_fv
  rw [(convert_narrowed s.tmp v 4 h).1, Option.map_some', (convert_narrowed s.tmp v 4 h).2]

/-- C6: the scalar helpers `VertexAttrib1d_as_f` … `VertexAttrib4d_as_f` leave
the calling thread's `tmp` (contents and size), and so every view into it,
unchanged; each helper that does change `tmp` changes it as its one `convert`
call does. -/
theorem C6_scalar_helpers_keep_buffer (s : Ctx) (loc : Nat) (iloc : Int)
    (v1 v2 v3 v4 : GLdouble) (value : List GLdouble) (n : Nat) :
    ((VertexAttrib1d_as_f loc v1 s).tmp = s.tmp ∧
      (VertexAttrib2d_as_f loc v1 v2 s).tmp = s.tmp ∧
      (VertexAttrib3d_as_f loc v1 v2 v3 s).tmp = s.tmp ∧
      (VertexAttrib4d_as_f loc v1 v2 v3 v4 s).tmp = s.tmp) ∧
    (ConversionView (VertexAttrib1d_as_f loc v1 s).tmp n = ConversionView s.tmp n ∧
      ConversionView (VertexAttrib2d_as_f loc v1 v2 s).tmp n = ConversionView s.tmp n ∧
      ConversionView (VertexAttrib3d_as_f loc v1 v2 v3 s).tmp n = ConversionView s.tmp n ∧
      ConversionView (VertexAttrib4d_as_f loc v1 v2 v3 v4 s).tmp n = ConversionView s.tmp n) ∧
    ((Uniform3dv iloc value s).map Ctx.tmp = convert s.tmp value 3 ∧
      (Uniform4dv iloc value s).map Ctx.tmp = convert s.tmp value 4 ∧
      (UniformMatrix4dv iloc value s).map Ctx.tmp = convert s.tmp value 16 ∧
      (UniformMatrix3dv iloc value s).map Ctx.tmp = convert s.tmp value 9 ∧
      (VertexAttrib2dv_as_fv loc value s).map Ctx.tmp = convert s.tmp value 2 ∧
      (VertexAttrib3dv_as_fv loc value s).map Ctx.tmp = convert s.tmp value 3 ∧
      (VertexAttrib4dv_as_fv loc value s).map Ctx.tmp = convert s.tmp value 4) := by
  refine ⟨⟨rfl, rfl, rfl, rfl⟩, ⟨rfl, rfl, rfl, rfl⟩, ?_, ?_, ?_, ?_, ?_, ?_, ?_⟩
  · unfold Uniform3dv; cases convert s.tmp value 3 <;> rfl
  · unfold Uniform4dv; cases convert s.tmp value 4 <;> rfl
  · unfold UniformMatrix4dv; cases convert s.tmp value 16 <;> rfl
  · unfold UniformMatrix3dv; cases convert s.tmp value 9 <;> rfl
  · unfold VertexAttrib2dv_as_fv; cases convert s.tmp value 2 <;> rfl
  · unfold VertexAttrib3dv_as_fv; cases convert s.tmp value 3 <;> rfl
  · unfold VertexAttrib4dv_as_fv; cases convert s.tmp value 4 <;> rfl

/-- C8: every forwarding helper other than the matrix-column ones issues exactly
one OpenGL call, to the float-typed entry point of its shape, with the location
unchanged and the narrowed inputs as values: `glUniform3fv(loc, 1, ·)`,
`glUniform4fv(loc, 1, ·)`, `glUniformMatrix3fv(loc, 1, GL_FALSE, ·)`,
`glUniformMatrix4fv(loc, 1, GL_FALSE, ·)`, `glVertexAttribKf` and
`glVertexAttribKfv`. -/
theorem C8_forwarding_one_call (s : Ctx) (loc : Int) (index : Nat) (value : List GLdouble)
    (v1 v2 v3 v4 : GLdouble) :
    (3 ≤ value.length → ∃ f, Uniform3dv loc value s =
      some ⟨f, s.gl ++ [GLCall.glUniform3fv loc 1 ((value.take 3).map static_cast_GLfloat)]⟩) ∧
    (4 ≤ value.length → ∃ f, Uniform4dv loc value s =
      some ⟨f, s.gl ++ [GLCall.glUniform4fv loc 1 ((value.take 4).map static_cast_GLfloat)]⟩) ∧
    (9 ≤ value.length → ∃ f, UniformMatrix3dv loc value s =
      some ⟨f, s.gl ++
        [GLCall.glUniformMatrix3fv loc 1 GL_FALSE ((value.take 9).map static_cast_GLfloat)]⟩) ∧
    (16 ≤ value.length → ∃ f, UniformMatrix4dv loc value s =
      some ⟨f, s.gl ++
        [GLCall.glUniformMatrix4fv loc 1 GL_FALSE ((value.take 16).map static_cast_GLfloat)]⟩) ∧
    VertexAttrib1d_as_f index v1 s =
      ⟨s.tmp, s.gl ++ [GLCall.glVertexAttrib1f index (static_cast_GLfloat v1)]⟩ ∧
    VertexAttrib2d_as_f index v1 v2 s =
      ⟨s.tmp, s.gl ++
        [GLCall.glVertexAttrib2f index (static_cast_GLfloat v1) (static_cast_GLfloat v2)]⟩ ∧
    VertexAttrib3d_as_f index v1 v2 v3 s =
      ⟨s.tmp, s.gl ++ [GLCall.glVertexAttrib3f index (static_cast_GLfloat v1)
        (static_cast_GLfloat v2) (static_cast_GLfloat v3)]⟩ ∧
    VertexAttrib4d_as_f index v1 v2 v3 v4 s =
      ⟨s.tmp, s.gl ++ [GLCall.glVertexAttrib4f index (static_cast_GLfloat v1)
        (static_cast_GLfloat v2) (static_cast_GLfloat v3) (static_cast_GLfloat v4)]⟩ ∧
    (2 ≤ value.length → ∃ f, VertexAttrib2dv_as_fv index value s =
      some ⟨f, s.gl ++ [GLCall.glVertexAttrib2fv index ((value.take 2).map static_cast_GLfloat)]⟩) ∧
    (3 ≤ value.length → ∃ f, VertexAttrib3dv_as_fv index value s =
      some ⟨f, s.gl ++ [GLCall.glVertexAttrib3fv index ((value.take 3).map static_cast_GLfloat)]⟩) ∧
    (4 ≤ value.length → ∃ f, VertexAttrib4dv_as_fv index value s =
      some ⟨f, s.gl ++ [GLCall.glVertexAttrib4fv index ((value.take 4).map static_cast_GLfloat)]⟩) :=
  ⟨fun h => ⟨_, Uniform3dv_eq loc value s h⟩, fun h => ⟨_, Uniform4dv_eq loc value s h⟩,
    fun h => ⟨_, UniformMatrix3dv_eq loc value s h⟩,
    fun h => ⟨_, UniformMatrix4dv_eq loc value s h⟩, rfl, rfl, rfl, rfl,
    fun h => ⟨_, VertexAttrib2dv_as_fv_eq index value s h⟩,
    fun h => ⟨_, VertexAttrib3dv_as_fv_eq index value s h⟩,
    fun h => ⟨_, VertexAttrib4dv_as_fv_eq index value s h⟩⟩

/-- Witness of C8: every helper run on an empty state with a source of 16
values. -/
theorem C8_forwarding_one_call_witness :
    (∃ f, Uniform3dv (-1) (List.replicate 16 FP.nan) ⟨[], []⟩ =
      some ⟨f, [] ++ [GLCall.glUniform3fv (-1) 1
        (((List.replicate 16 FP.nan).take 3).map static_cast_GLfloat)]⟩) ∧
    (∃ f, Uniform4dv (-1) (List.replicate 16 FP.nan) ⟨[], []⟩ =
      some ⟨f, [] ++ [GLCall.glUniform4fv (-1) 1
        (((List.replicate 16 FP.nan).take 4).map static_cast_GLfloat)]⟩) ∧
    (∃ f, UniformMatrix3dv (-1) (List.replicate 16 FP.nan) ⟨[], []⟩ =
      some ⟨f, [] ++ [GLCall.glUniformMatrix3fv (-1) 1 GL_FALSE
        (((List.replicate 16 FP.nan).take 9).map static_cast_GLfloat)]⟩) ∧
    (∃ f, UniformMatrix4dv (-1) (List.replicate 16 FP.nan) ⟨[], []⟩ =
      some ⟨f, [] ++ [GLCall.glUniformMatrix4fv (-1) 1 GL_FALSE
        (((List.replicate 16 FP.nan).take 16).map static_cast_GLfloat)]⟩) ∧
    (∃ f, VertexAttrib2dv_as_fv 5 (List.replicate 16 FP.nan) ⟨[], []⟩ =
      some ⟨f, [] ++ [GLCall.glVertexAttrib2fv 5
        (((List.replicate 16 FP.nan).take 2).map static_cast_GLfloat)]⟩) ∧
    (∃ f, VertexAttrib3dv_as_fv 5 (List.replicate 16 FP.nan) ⟨[], []⟩ =
      some ⟨f, [] ++ [GLCall.glVertexAttrib3fv 5
        (((List.replicate 16 FP.nan).take 3).map static_cast_GLfloat)]⟩) ∧
    (∃ f, VertexAttrib4dv_as_fv 5 (List.replicate 16 FP.nan) ⟨[], []⟩ =
      some ⟨f, [] ++ [GLCall.glVertexAttrib4fv 5
        (((List.replicate 16 FP.nan).take 4).map static_cast_GLfloat)]⟩) :=
  have h := C8_forwarding_one_call ⟨[], []⟩ (-1) 5 (List.replicate 16 FP.nan)
    FP.nan FP.nan FP.nan FP.nan
  ⟨h.1 (by decide), h.2.1 (by decide), h.2.2.1 (by decide), h.2.2.2.1 (by decide),
    h.2.2.2.2.2.2.2.2.1 (by decide), h.2.2.2.2.2.2.2.2.2.1 (by decide),
    h.2.2.2.2.2.2.2.2.2.2 (by decide)⟩

/-- C7: `VertexAttribMatrixN_as_fv` (`N = 2, 3, 4`) issues exactly `N` OpenGL
calls, all `glVertexAttribNfv`, in column order, the `k`-th at location
`loc + k` in `GLuint` arithmetic with the narrowing of the first `N` values of
column `k`, whatever `tmp` held before. -/
theorem C7_matrix_columns (s : Ctx) (loc : Nat) (col0 col1 col2 col3 : List GLdouble) :
    (2 ≤ col0.length → 2 ≤ col1.length →
      ∃ f, VertexAttribMatrix2_as_fv loc col0 col1 s = some ⟨f, s.gl ++
        [GLCall.glVertexAttrib2fv ((loc + 0) % 2 ^ 32) ((col0.take 2).map static_cast_GLfloat),
         GLCall.glVertexAttrib2fv ((loc + 1) % 2 ^ 32) ((col1.take 2).map static_cast_GLfloat)]⟩) ∧
    (3 ≤ col0.length → 3 ≤ col1.length → 3 ≤ col2.length →
      ∃ f, VertexAttribMatrix3_as_fv loc col0 col1 col2 s = some ⟨f, s.gl ++
        [GLCall.glVertexAttrib3fv ((loc + 0) % 2 ^ 32) ((col0.take 3).map static_cast_GLfloat),
         GLCall.glVertexAttrib3fv ((loc + 1) % 2 ^ 32) ((col1.take 3).map static_cast_GLfloat),
         GLCall.glVertexAttrib3fv ((loc + 2) % 2 ^ 32) ((col2.take 3).map static_cast_GLfloat)]⟩) ∧
    (4 ≤ col0.length → 4 ≤ col1.length → 4 ≤ col2.length → 4 ≤ col3.length →
      ∃ f, VertexAttribMatrix4_as_fv loc col0 col1 col2 col3 s = some ⟨f, s.gl ++
        [GLCall.glVertexAttrib4fv ((loc + 0) % 2 ^ 32) ((col0.take 4).map static_cast_GLfloat),
         GLCall.glVertexAttrib4fv ((loc + 1) % 2 ^ 32) ((col1.take 4).map static_cast_GLfloat),
         GLCall.glVertexAttrib4fv ((loc + 2) % 2 ^ 32) ((col2.take 4).map static_cast_GLfloat),
         GLCall.glVertexAttrib4fv ((loc + 3) % 2 ^ 32) ((col3.take 4).map static_cast_GLfloat)]⟩) ∧
    (loc < 2 ^ 32 → (loc + 0) % 2 ^ 32 = loc) := by
  refine ⟨?_, ?_, ?_, ?_⟩
  · intro h0 h1
    refine ⟨narrowed col1 2 ++ (narrowed col0 2 ++ s.tmp.drop 2).drop 2, ?_⟩
    unfold VertexAttribMatrix2_as_fv
    rw [VertexAttrib2dv_as_fv_eq _ col0 s h0, Option.some_bind,
      VertexAttrib2dv_as_fv_eq _ col1 _ h1]
    simp [GLuint.add, narrowed]
  · intro h0 h1 h2
    refine ⟨narrowed col2 3 ++ (narrowed col1 3 ++ (narrowed col0 3 ++ s.tmp.drop 3).drop 3).drop 3,
      ?_⟩
    unfold VertexAttribMatrix3_as_fv
    rw [VertexAttrib3dv_as_fv_eq _ col0 s h0, Option.some_bind,
      VertexAttrib3dv_as_fv_eq _ col1 _ h1, Option.some_bind,
      VertexAttrib3dv_as_fv_eq _ col2 _ h2]
    simp [GLuint.add, narrowed]
  · intro h0 h1 h2 h3
    refine ⟨narrowed col3 4 ++ (narrowed col2 4 ++ (narrowed col1 4 ++
      (narrowed col0 4 ++ s.tmp.drop 4).drop 4).drop 4).drop 4, ?_⟩
    unfold VertexAttribMatrix4_as_fv
    rw [VertexAttrib4dv_as_fv_eq _ col0 s h0, Option.some_bind,
      VertexAttrib4dv_as_fv_eq _ col1 _ h1, Option.some_bind,
      VertexAttrib4dv_as_fv_eq _ col2 _ h2, Option.some_bind,
      VertexAttrib4dv_as_fv_eq _ col3 _ h3]
    simp [GLuint.add, narrowed]
  · intro h
    rw [Nat.add_zero, Nat.mod_eq_of_lt h]

/-- Witness of C7: columns of four values at location `2^32 - 1`, where the
location of the second column wraps to `0`. -/
theorem C7_matrix_columns_witness :
    (∃ f, VertexAttribMatrix2_as_fv 4294967295 (List.replicate 4 FP.nan)
        (List.replicate 4 (FP.inf true)) ⟨[], []⟩ = some ⟨f, [] ++
        [GLCall.glVertexAttrib2fv ((4294967295 + 0) % 2 ^ 32)
          (((List.replicate 4 FP.nan).take 2).map static_cast_GLfloat),
         GLCall.glVertexAttrib2fv ((4294967295 + 1) % 2 ^ 32)
          (((List.replicate 4 (FP.inf true)).take 2).map static_cast_GLfloat)]⟩) ∧
    (∃ f, VertexAttribMatrix3_as_fv 4294967295 (List.replicate 4 FP.nan)
        (List.replicate 4 (FP.inf true)) (List.replicate 4 (FP.inf false)) ⟨[], []⟩ =
        some ⟨f, [] ++
        [GLCall.glVertexAttrib3fv ((4294967295 + 0) % 2 ^ 32)
          (((List.replicate 4 FP.nan).take 3).map static_cast_GLfloat),
         GLCall.glVertexAttrib3fv ((4294967295 + 1) % 2 ^ 32)
          (((List.replicate 4 (FP.inf true)).take 3).map static_cast_GLfloat),
         GLCall.glVertexAttrib3fv ((4294967295 + 2) % 2 ^ 32)
          (((List.replicate 4 (FP.inf false)).take 3).map static_cast_GLfloat)]⟩) ∧
    (∃ f, VertexAttribMatrix4_as_fv 4294967295 (List.replicate 4 FP.nan)
        (List.replicate 4 (FP.inf true)) (List.replicate 4 (FP.inf false))
        (List.replicate 4 FP.nan) ⟨[], []⟩ = some ⟨f, [] ++
        [GLCall.glVertexAttrib4fv ((4294967295 + 0) % 2 ^ 32)
          (((List.replicate 4 FP.nan).take 4).map static_cast_GLfloat),
         GLCall.glVertexAttrib4fv ((4294967295 + 1) % 2 ^ 32)
          (((List.replicate 4 (FP.inf true)).take 4).map static_cast_GLfloat),
         GLCall.glVertexAttrib4fv ((4294967295 + 2) % 2 ^ 32)
          (((List.replicate 4 (FP.inf false)).take 4).map static_cast_GLfloat),
         GLCall.glVertexAttrib4fv ((4294967295 + 3) % 2 ^ 32)
          (((List.replicate 4 FP.nan).take 4).map static_cast_GLfloat)]⟩) ∧
    (4294967295 + 0) % 2 ^ 32 = 4294967295 :=
  have h := C7_matrix_columns ⟨[], []⟩ 4294967295 (List.replicate 4 FP.nan)
    (List.replicate 4 (FP.inf true)) (List.replicate 4 (FP.inf false)) (List.replicate 4 FP.nan)
  ⟨h.1 (by decide) (by decide), h.2.1 (by decide) (by decide) (by decide),
    h.2.2.1 (by decide) (by decide) (by decide) (by decide), h.2.2.2 (by decide)⟩

/-! ## Threads -/

theorem convertOn_eq (w : World) (c : Call) (h : c.count ≤ c.src.length) :
    convertOn w c = some (Function.update w c.thread (narrowed c.src c.count ++
      (w c.thread).drop c.count)) := by
  unfold convertOn
  rw [convert_eq _ c.src c.count h]; rfl

theorem runCalls_append (a b : List Call) :
    ∀ w : World, runCalls w (a ++ b) = (runCalls w a).bind fun w1 => runCalls w1 b := by
  induction a with
  | nil => intro w; rfl
  | cons c cs ih =>
    intro w
    rw [List.cons_append, runCalls, runCalls]
    cases convertOn w c with
    | none => rfl
    | some w1 => exact ih w1

theorem runCalls_frame (calls : List Call) (t : Nat) (ht : ∀ d ∈ calls, d.thread ≠ t) :
    ∀ w w2 : World, runCalls w calls = some w2 → w2 t = w t := by
  induction calls with
  | nil =>
    intro w w2 h
    rw [runCalls] at h
    rw [← Option.some.inj h]
  | cons c cs ih =>
    intro w w2 h
    rw [runCalls] at h
    unfold convertOn at h
    cases hc : convert (w c.thread) c.src c.count with
    | none => rw [hc] at h; exact absurd h (by simp)
    | some f =>
      rw [hc, Option.map_some', Option.some_bind] at h
      have h2 := ih (fun d hd => ht d (List.mem_cons_of_mem _ hd)) _ w2 h
      rw [h2, Function.update_noteq (Ne.symm (ht c (List.mem_cons_self _ _)))]

theorem runCalls_project (calls : List Call) :
    ∀ w : World, (∀ c ∈ calls, c.count ≤ c.src.length) →
      ∃ w2, runCalls w calls = some w2 ∧
        ∀ t, runThread (w t) (calls.filter fun c => c.thread = t) = some (w2 t) := by
  induction calls with
  | nil => intro w _; exact ⟨w, rfl, fun _ => rfl⟩
  | cons c cs ih =>
    intro w h
    have hc : c.count ≤ c.src.length := h c (List.mem_cons_self _ _)
    obtain ⟨w2, hw2, hproj⟩ := ih (Function.update w c.thread (narrowed c.src c.count ++
      (w c.thread).drop c.count)) (fun d hd => h d (List.mem_cons_of_mem _ hd))
    refine ⟨w2, ?_, ?_⟩
    · rw [runCalls, convertOn_eq w c hc]; exact hw2
    · intro t
      by_cases ht : c.thread = t
      · rw [List.filter_cons_of_pos (by simpa using ht), runThread, ← ht,
          convert_eq _ c.src c.count hc, Option.some_bind]
        have := hproj c.thread
        rw [Function.update_same] at this
        rw [← ht] at *
        exact this
      · rw [List.filter_cons_of_neg (by simpa using ht)]
        have := hproj t
        rwa [Function.update_noteq (Ne.symm ht)] at this

/-- C5: with one `tmp` per thread, a `convert` call of one thread leaves the
`tmp` of every other thread unchanged; after any interleaving the `tmp` of a
thread is what its own calls alone produce; and the view a thread got from its
latest `convert` still equals the narrowing of that call's input, whatever the
other threads convert afterwards. -/
theorem C5_thread_isolation (w : World) (calls : List Call)
    (hpre : ∀ c ∈ calls, c.count ≤ c.src.length) (t : Nat)
    (pre post : List Call) (c : Call) (hsplit : calls = pre ++ c :: post)
    (hpost : ∀ d ∈ post, d.thread ≠ c.thread)
    (w1 : World) (c1 : Call) (h1 : c1.count ≤ c1.src.length) (hne : c1.thread ≠ t) :
    (∃ w2, convertOn w1 c1 = some w2 ∧ w2 t = w1 t ∧ (w2 t).length = (w1 t).length) ∧
    ∃ w2, runCalls w calls = some w2 ∧
      runThread (w t) (calls.filter fun d => d.thread = t) = some (w2 t) ∧
      ConversionView (w2 c.thread) c.count = (c.src.take c.count).map static_cast_GLfloat := by
  refine ⟨⟨_, convertOn_eq w1 c1 h1, ?_, ?_⟩, ?_⟩
  · rw [Function.update_noteq (Ne.symm hne)]
  · rw [Function.update_noteq (Ne.symm hne)]
  · obtain ⟨w2, hw2, hproj⟩ := runCalls_project calls w hpre
    refine ⟨w2, hw2, hproj t, ?_⟩
    have hc : c.count ≤ c.src.length := hpre c (by rw [hsplit]; simp)
    rw [hsplit, runCalls_append] at hw2
    cases hp : runCalls w pre with
    | none => rw [hp] at hw2; exact absurd hw2 (by simp)
    | some wp =>
      rw [hp, Option.some_bind, runCalls, convertOn_eq wp c hc, Option.some_bind] at hw2
      rw [runCalls_frame post c.thread hpost _ w2 hw2, Function.update_same]
      exact view_convert _ c.src c.count hc

/-- Witness of C5: thread 1 converts two values, then thread 2 converts one. -/
theorem C5_thread_isolation_witness :
    (∃ w2, convertOn (fun _ => []) ⟨2, [FP.inf true], 1⟩ = some w2 ∧
      w2 1 = (fun _ => ([] : List GLfloat)) 1 ∧
      (w2 1).length = ((fun _ => ([] : List GLfloat)) 1).length) ∧
    ∃ w2, runCalls (fun _ => []) [⟨1, [FP.nan, FP.inf false], 2⟩, ⟨2, [FP.inf true], 1⟩] = some w2 ∧
      runThread ((fun _ => ([] : List GLfloat)) 1)
        ([(⟨1, [FP.nan, FP.inf false], 2⟩ : Call), ⟨2, [FP.inf true], 1⟩].filter
          fun d => d.thread = 1) = some (w2 1) ∧
      ConversionView (w2 (⟨1, [FP.nan, FP.inf false], 2⟩ : Call).thread)
          (⟨1, [FP.nan, FP.inf false], 2⟩ : Call).count
        = (((⟨1, [FP.nan, FP.inf false], 2⟩ : Call).src.take
            (⟨1, [FP.nan, FP.inf false], 2⟩ : Call).count).map static_cast_GLfloat) :=
  C5_thread_isolation (fun _ => []) [⟨1, [FP.nan, FP.inf false], 2⟩, ⟨2, [FP.inf true], 1⟩]
    (by decide) 1 [] [⟨2, [FP.inf true], 1⟩] ⟨1, [FP.nan, FP.inf false], 2⟩ rfl (by decide)
    (fun _ => []) ⟨2, [FP.inf true], 1⟩ (by decide) (by decide)

/-! ## Narrowing claims -/

/-- C1: for every source `S` with at least `n` elements and every prior state
of `tmp`, `convert(S, n)` returns a view of exactly `n` elements whose element
`i` is `static_cast<GLfloat>(S[i])`; for a finite `S[i]` that is the binary32
datum nearest to `S[i]`, ties to even; the view does not depend on what `tmp`
held, so after `convert(A, 3)`, `convert(B, 16)`, `convert(C, 2)` it holds the
narrowing of the first two values of `C` only. -/
theorem C1_view_is_nearest_narrowing (tmp : List GLfloat) (S : List GLdouble) (n : Nat)
    (hn : n ≤ S.length) (A B C : List GLdouble) (hA : 3 ≤ A.length) (hB : 16 ≤ B.length)
    (hC : 2 ≤ C.length) :
    (∃ f, convert tmp S n = some f ∧
      (ConversionView f n).length = n ∧
      ConversionView f n = (S.take n).map static_cast_GLfloat ∧
      (∀ i, i < n → (ConversionView f n)[i]? = S[i]?.map static_cast_GLfloat) ∧
      (∀ i x, i < n → S[i]? = some x → x.isFinite = true →
        ∃ r, (ConversionView f n)[i]? = some r ∧ IsNearestEven binary32 x.toRat r)) ∧
    (∃ f1 f2 f3, convert tmp A 3 = some f1 ∧ convert f1 B 16 = some f2 ∧
      convert f2 C 2 = some f3 ∧
      ConversionView f3 2 = (C.take 2).map static_cast_GLfloat) := by
  have hget : ∀ i, i < n →
      (ConversionView ((S.take n).map static_cast_GLfloat ++ tmp.drop n) n)[i]?
        = S[i]?.map static_cast_GLfloat := by
    intro i hi
    unfold ConversionView
    rw [view_convert tmp S n hn, List.getElem?_map, List.getElem?_take, if_pos hi]
  refine ⟨⟨_, convert_eq tmp S n hn, ?_, view_convert tmp S n hn, hget, ?_⟩,
    ⟨_, _, _, convert_eq tmp A 3 hA, convert_eq _ B 16 hB, convert_eq _ C 2 hC,
      view_convert _ C 2 hC⟩⟩
  · unfold ConversionView
    rw [view_convert tmp S n hn, List.length_map, List.length_take]; omega
  · intro i x hi hx hfin
    refine ⟨static_cast_GLfloat x, by rw [hget i hi, hx]; rfl, ?_⟩
    cases x with
    | finite s m e => exact static_cast_GLfloat_nearest s m e
    | inf _ => simp [FP.isFinite] at hfin
    | nan => simp [FP.isFinite] at hfin

/-- Witness of C1: `1.0` converted into a fresh buffer, then the three-call
scenario on sources of 3, 16 and 2 values. -/
theorem C1_view_is_nearest_narrowing_witness :
    (∃ f, convert [] [FP.finite false 1 0] 1 = some f ∧
      (ConversionView f 1).length = 1 ∧
      ConversionView f 1 = ([FP.finite false 1 0].take 1).map static_cast_GLfloat ∧
      (∀ i, i < 1 →
        (ConversionView f 1)[i]? = [FP.finite false 1 0][i]?.map static_cast_GLfloat) ∧
      (∀ i x, i < 1 → [FP.finite false 1 0][i]? = some x → x.isFinite = true →
        ∃ r, (ConversionView f 1)[i]? = some r ∧ IsNearestEven binary32 x.toRat r)) ∧
    (∃ f1 f2 f3, convert [] (List.replicate 3 (FP.inf true)) 3 = some f1 ∧
      convert f1 (List.replicate 16 (FP.inf false)) 16 = some f2 ∧
      convert f2 [FP.nan, FP.finite true 3 (-1)] 2 = some f3 ∧
      ConversionView f3 2 = ([FP.nan, FP.finite true 3 (-1)].take 2).map static_cast_GLfloat) :=
  C1_view_is_nearest_narrowing [] [FP.finite false 1 0] 1 (by decide)
    (List.replicate 3 (FP.inf true)) (List.replicate 16 (FP.inf false))
    [FP.nan, FP.finite true 3 (-1)] (by decide) (by decide) (by decide)

/-- C4: `convert([1.0, 2.5, -3.999999999], 3)` returns the binary32 data
`[1.0f, 2.5f, -3.999999881f]`, each literal denoting the datum of its type
nearest to it (ties to even); these are `1 * 2^0`, `1.25 * 2^1` and `-4`. -/
theorem C4_scenario_values (tmp : List GLfloat) :
    (∃ f, convert tmp [doubleLit false 1 1, doubleLit false 25 10,
        doubleLit true 3999999999 1000000000] 3 = some f ∧
      ConversionView f 3 = [floatLit false 1 1, floatLit false 25 10,
        floatLit true 3999999881 1000000000] ∧
      ConversionView f 3 = [FP.finite false 8388608 (-23), FP.finite false 10485760 (-22),
        FP.finite true 8388608 (-21)]) ∧
    (IsNearestEven binary64 1 (doubleLit false 1 1) ∧
      IsNearestEven binary64 2.5 (doubleLit false 25 10) ∧
      IsNearestEven binary64 (-3.999999999) (doubleLit true 3999999999 1000000000)) ∧
    (IsNearestEven binary32 1 (floatLit false 1 1) ∧
      IsNearestEven binary32 2.5 (floatLit false 25 10) ∧
      IsNearestEven binary32 (-3.999999881) (floatLit true 3999999881 1000000000)) := by
  have h3 : 3 ≤ [doubleLit false 1 1, doubleLit false 25 10,
      doubleLit true 3999999999 1000000000].length := by decide
  have e1 : ((if false then -1 else 1) * (((1 : ℕ) : ℚ) / ((1 : ℕ) : ℚ))) = 1 := by norm_num
  have e2 : ((if false then -1 else 1) * (((25 : ℕ) : ℚ) / ((10 : ℕ) : ℚ))) = 2.5 := by norm_num
  have e3 : ((if true then -1 else 1) * (((3999999999 : ℕ) : ℚ) / ((1000000000 : ℕ) : ℚ)))
      = -3.999999999 := by norm_num
  have e4 : ((if true then -1 else 1) * (((3999999881 : ℕ) : ℚ) / ((1000000000 : ℕ) : ℚ)))
      = -3.999999881 := by norm_num
  have d1 := roundRatio_nearest binary64 (by decide) (by decide) false 1 1 (by decide)
  have d2 := roundRatio_nearest binary64 (by decide) (by decide) false 25 10 (by decide)
  have d3 := roundRatio_nearest binary64 (by decide) (by decide) true 3999999999 1000000000
    (by decide)
  have f1 := roundRatio_nearest binary32 (by decide) (by decide) false 1 1 (by decide)
  have f2 := roundRatio_nearest binary32 (by decide) (by decide) false 25 10 (by decide)
  have f3 := roundRatio_nearest binary32 (by decide) (by decide) true 3999999881 1000000000
    (by decide)
  rw [e1] at d1 f1
  rw [e2] at d2 f2
  rw [e3] at d3
  rw [e4] at f3
  refine ⟨⟨_, convert_eq tmp _ 3 h3, ?_, ?_⟩, ⟨d1, d2, d3⟩, ⟨f1, f2, f3⟩⟩
  · unfold ConversionView
    rw [view_convert tmp _ 3 h3]
    decide
  · unfold ConversionView
    rw [view_convert tmp _ 3 h3]
    decide

end ghoul.opengl.util
